import Mathlib

/-!
Verification development for the CBS match bot's entity-resolution /
weighted fuzzy-matching core.

The Python source (src/app/components/FuzzyMatchComponent.py,
src/app/components/WeightageComponent.py, src/app/Utils.py,
src/app/Constants.py) is shallowly embedded here:

* pandas cell values are `Option String` (`none` models NaN),
  DataFrames are a column list plus association-list rows;
* Python dicts are association lists with insert-overwrite semantics;
* floats are modelled as exact rationals (`ℚ`); `round(x, 2)` is modelled
  as round-half-up at two decimals (Python uses float half-to-even; every
  claim checked here is insensitive to the tie-breaking direction);
* rapidfuzz `fuzz.ratio` is the normalized indel similarity
  `200 * lcs / (len a + len b)`, materialized through the `np.uint8`
  conversion used by `process.cdist` (rounded to an integer percentage);
* character classification (`isalnum`, `lower`, whitespace) is modelled at
  ASCII precision, which is exact on all inputs appearing in the claims;
* exceptions are modelled with `Except`.
-/

namespace CbsMatch

/-- Python whitespace characters recognised by `str.strip()` (ASCII range). -/
def isPyWs (c : Char) : Bool :=
  c = ' ' ∨ c = '\t' ∨ c = '\n' ∨ c = '\r' ∨ c = '\x0b' ∨ c = '\x0c'

/-- `str.strip()` on a character list: drop whitespace from both ends. -/
def stripChars (l : List Char) : List Char :=
  ((l.dropWhile isPyWs).reverse.dropWhile isPyWs).reverse

/-- `str.strip()`. -/
def pyStrip (s : String) : String :=
  String.mk (stripChars s.toList)

/-- `str.replace(" ", "")`: remove every space character (only U+0020). -/
def removeSpaces (l : List Char) : List Char :=
  l.filter (fun c => ¬ (c = ' '))

/-- `str.lower()` (ASCII model). -/
def pyLower (s : String) : String :=
  String.mk (s.toList.map Char.toLower)

/-- rapidfuzz `utils.default_process`: replace each non-alphanumeric
character by a space, lower-case, and trim whitespace from both ends
(the fuzzywuzzy-compatible `full_process` behaviour). -/
def defaultProcess (l : List Char) : List Char :=
  stripChars (l.map (fun c => if c.isAlphanum then c.toLower else ' '))

/-- `FuzzyMatcherComponent._preprocess_text` on a string value:
`str(text).strip().replace(" ", "")` followed by `utils.default_process`. -/
def preprocessText (s : String) : String :=
  String.mk (defaultProcess (removeSpaces (stripChars s.toList)))

/-- Fuel-indexed longest-common-subsequence recursion: each step consumes
one character from one of the two lists, so any fuel of at least
`|a| + |b|` computes the true LCS length (`lcsFuel_eq_of_le` below shows
the value does not depend on the fuel once sufficient); phrasing the
recursion on fuel keeps the function structurally recursive. -/
def lcsFuel : ℕ → List Char → List Char → ℕ
  | _, [], _ => 0
  | _, _ :: _, [] => 0
  | 0, _ :: _, _ :: _ => 0
  | n + 1, a :: as, b :: bs =>
    if a = b then lcsFuel n as bs + 1
    else max (lcsFuel n (a :: as) bs) (lcsFuel n as (b :: bs))

/-- Length of a longest common subsequence, the combinatorial core of the
indel distance underlying rapidfuzz `fuzz.ratio`. -/
def lcsLen (a b : List Char) : ℕ := lcsFuel (a.length + b.length) a b

/-- rapidfuzz `fuzz.ratio` as an exact rational in [0, 100]: the normalized
indel similarity `100 * (1 - dist_indel / (|a| + |b|))`, which equals
`200 * lcs / (|a| + |b|)`; two empty strings score 100. -/
def indelSim (a b : List Char) : ℚ :=
  if a.length + b.length = 0 then 100
  else (200 * (lcsLen a b : ℚ)) / ((a.length : ℚ) + (b.length : ℚ))

/-- The `np.uint8` materialization performed by `process.cdist(...,
dtype=np.uint8)`: the similarity score as a rounded integer percentage. -/
def pctOf (a b : List Char) : ℕ :=
  (round (indelSim a b)).toNat

/-- One entry of the similarity series produced by
`_calculate_batch_text_similarity`: preprocess both sides, score with
`fuzz.ratio` into `np.uint8`, divide by 100.  `q` is the already
`str()`-converted query; an empty or empty-after-preprocessing query yields
the constant 0.0 series, and a NaN cell is `fillna("")`-converted first. -/
def textCellSim (cell : Option String) (q : String) : ℚ :=
  if q = "" then 0
  else
    let pq := preprocessText q
    if pq = "" then 0
    else (pctOf (preprocessText (cell.getD "")).toList pq.toList : ℚ) / 100

/-! Basic bounds for the similarity core. -/

theorem lcsFuel_eq_of_le :
    ∀ (n m : ℕ) (a b : List Char), a.length + b.length ≤ n →
      a.length + b.length ≤ m → lcsFuel n a b = lcsFuel m a b := by
  intro n
  induction n with
  | zero =>
    intro m a b hn hm
    cases a with
    | nil => simp [lcsFuel]
    | cons x xs => simp at hn
  | succ n ih =>
    intro m a b hn hm
    cases a with
    | nil => simp [lcsFuel]
    | cons x xs =>
      cases b with
      | nil => simp [lcsFuel]
      | cons y ys =>
        cases m with
        | zero => simp at hm
        | succ m =>
          simp only [List.length_cons] at hn hm
          rw [lcsFuel, lcsFuel]
          by_cases h : x = y
          · rw [if_pos h, if_pos h,
              ih m xs ys (by omega) (by omega)]
          · rw [if_neg h, if_neg h,
              ih m (x :: xs) ys
                (by simp only [List.length_cons]; omega)
                (by simp only [List.length_cons]; omega),
              ih m xs (y :: ys)
                (by simp only [List.length_cons]; omega)
                (by simp only [List.length_cons]; omega)]

theorem lcsFuel_le_left : ∀ (n : ℕ) (a b : List Char),
    lcsFuel n a b ≤ a.length := by
  intro n
  induction n with
  | zero => intro a b; cases a <;> cases b <;> simp [lcsFuel]
  | succ n ih =>
    intro a b
    cases a with
    | nil => simp [lcsFuel]
    | cons x xs =>
      cases b with
      | nil => simp [lcsFuel]
      | cons y ys =>
        rw [lcsFuel]
        by_cases h : x = y
        · rw [if_pos h]
          simp only [List.length_cons]
          exact Nat.succ_le_succ (ih xs ys)
        · rw [if_neg h]
          refine max_le (ih (x :: xs) ys) ?_
          calc lcsFuel n xs (y :: ys) ≤ xs.length := ih xs (y :: ys)
            _ ≤ (x :: xs).length := by simp

theorem lcsFuel_le_right : ∀ (n : ℕ) (a b : List Char),
    lcsFuel n a b ≤ b.length := by
  intro n
  induction n with
  | zero => intro a b; cases a <;> cases b <;> simp [lcsFuel]
  | succ n ih =>
    intro a b
    cases a with
    | nil => simp [lcsFuel]
    | cons x xs =>
      cases b with
      | nil => simp [lcsFuel]
      | cons y ys =>
        rw [lcsFuel]
        by_cases h : x = y
        · rw [if_pos h]
          simp only [List.length_cons]
          exact Nat.succ_le_succ (ih xs ys)
        · rw [if_neg h]
          simp only [List.length_cons]
          refine max_le ?_ ?_
          · calc lcsFuel n (x :: xs) ys ≤ ys.length := ih (x :: xs) ys
              _ ≤ ys.length + 1 := Nat.le_succ _
          · calc lcsFuel n xs (y :: ys) ≤ (y :: ys).length := ih xs (y :: ys)
              _ = ys.length + 1 := by simp

theorem lcsLen_le_left (a b : List Char) : lcsLen a b ≤ a.length :=
  lcsFuel_le_left _ a b

theorem lcsLen_le_right (a b : List Char) : lcsLen a b ≤ b.length :=
  lcsFuel_le_right _ a b

theorem indelSim_nonneg (a b : List Char) : 0 ≤ indelSim a b := by
  unfold indelSim
  split
  · norm_num
  · apply div_nonneg
    · positivity
    · have : (0:ℚ) ≤ (a.length : ℚ) + (b.length : ℚ) := by positivity
      exact this

theorem indelSim_le_100 (a b : List Char) : indelSim a b ≤ 100 := by
  unfold indelSim
  split
  · exact le_refl 100
  · rename_i h
    have hpos : (0:ℚ) < (a.length : ℚ) + (b.length : ℚ) := by
      have : 0 < a.length + b.length := Nat.pos_of_ne_zero h
      exact_mod_cast this
    rw [div_le_iff₀ hpos]
    have h1 : lcsLen a b ≤ a.length := lcsLen_le_left a b
    have h2 : lcsLen a b ≤ b.length := lcsLen_le_right a b
    have : (2 * lcsLen a b : ℚ) ≤ (a.length : ℚ) + (b.length : ℚ) := by
      have := Nat.add_le_add h1 h2
      have h3 : 2 * lcsLen a b ≤ a.length + b.length := by omega
      exact_mod_cast h3
    nlinarith

theorem pctOf_le_100 (a b : List Char) : pctOf a b ≤ 100 := by
  unfold pctOf
  have h := indelSim_le_100 a b
  have : round (indelSim a b) ≤ round (100 : ℚ) := by
    rw [round_eq, round_eq]
    exact Int.floor_mono (by linarith)
  have h100 : round (100 : ℚ) = 100 := by
    norm_num [round_eq]
  omega

theorem textCellSim_nonneg (cell : Option String) (q : String) :
    0 ≤ textCellSim cell q := by
  unfold textCellSim
  split
  · norm_num
  · simp only []
    split
    · norm_num
    · positivity

theorem textCellSim_le_one (cell : Option String) (q : String) :
    textCellSim cell q ≤ 1 := by
  unfold textCellSim
  split
  · norm_num
  · simp only []
    split
    · norm_num
    · rw [div_le_one (by norm_num : (0:ℚ) < 100)]
      have := pctOf_le_100 (preprocessText (cell.getD "")).toList
        (preprocessText q).toList
      exact_mod_cast this

/-!
## Date standardization (`app.Utils.standardize_date_format`)

The Python function tries a fixed, ordered list of `strptime` layouts and
returns the first successful parse re-formatted as `YYYYMMDD`, or `None`.
`datetime.strptime` is modelled with CPython's `_strptime` regexes:
each directive is an ordered-alternative pattern, the compiled pattern is
matched with backtracking against a prefix of the input, and the parse
fails if unconverted data remains or the resulting calendar date is
invalid.
-/

/-- A compiled `strptime` directive: a literal character (matched
case-insensitively), a whitespace run, or one of the numeric / month-name
directives used by the format list in `standardize_date_format`. -/
inductive Dir where
  | lit (c : Char)
  | ws
  | dY
  | dm
  | dd
  | dH
  | dMin
  | dS
  | db
  | dB

/-- Partially parsed date values (only year / month / day are consumed by
the `YYYYMMDD` output; hour / minute / second are parsed and discarded). -/
structure DtSt where
  y : ℕ := 1900
  mo : ℕ := 1
  dy : ℕ := 1

def digitVal (c : Char) : ℕ := c.toNat - '0'.toNat

/-- Case-insensitive prefix removal (ASCII), used for month names and
literal characters, mirroring `re.IGNORECASE` compilation in `_strptime`. -/
def dropPrefixCI : List Char → List Char → Option (List Char)
  | [], s => some s
  | _ :: _, [] => none
  | p :: ps, c :: cs => if p.toLower = c.toLower then dropPrefixCI ps cs else none

/-- English month abbreviations with month numbers (the `%b` directive). -/
def abbrMonths : List (List Char × ℕ) :=
  [("jan".toList, 1), ("feb".toList, 2), ("mar".toList, 3), ("apr".toList, 4),
   ("may".toList, 5), ("jun".toList, 6), ("jul".toList, 7), ("aug".toList, 8),
   ("sep".toList, 9), ("oct".toList, 10), ("nov".toList, 11), ("dec".toList, 12)]

/-- English full month names with month numbers, ordered longest-first as
`_strptime.TimeRE.__seqToRE` sorts them (the `%B` directive). -/
def fullMonths : List (List Char × ℕ) :=
  [("september".toList, 9), ("february".toList, 2), ("november".toList, 11),
   ("december".toList, 12), ("january".toList, 1), ("october".toList, 10),
   ("august".toList, 8), ("march".toList, 3), ("april".toList, 4),
   ("june".toList, 6), ("july".toList, 7), ("may".toList, 5)]

/-- All ways a directive can match a prefix of the input, in the regex
engine's preference order (alternatives in pattern order, `\s+` greedy).
Each entry is the updated parse state and the remaining input. -/
def dirMatches (d : Dir) (st : DtSt) (s : List Char) : List (DtSt × List Char) :=
  match d with
  | .lit c =>
    match s with
    | [] => []
    | x :: rest => if x.toLower = c.toLower then [(st, rest)] else []
  | .ws =>
    let n := (s.takeWhile isPyWs).length
    (List.range n).map (fun i => (st, s.drop (n - i)))
  | .dY =>
    match s with
    | c1 :: c2 :: c3 :: c4 :: rest =>
      if c1.isDigit ∧ c2.isDigit ∧ c3.isDigit ∧ c4.isDigit then
        [({st with y := 1000 * digitVal c1 + 100 * digitVal c2 +
            10 * digitVal c3 + digitVal c4}, rest)]
      else []
    | _ => []
  | .dm =>
    (match s with
     | c1 :: c2 :: rest =>
       if c1 = '1' ∧ '0' ≤ c2 ∧ c2 ≤ '2' then [({st with mo := 10 + digitVal c2}, rest)]
       else if c1 = '0' ∧ '1' ≤ c2 ∧ c2 ≤ '9' then [({st with mo := digitVal c2}, rest)]
       else []
     | _ => []) ++
    (match s with
     | c1 :: rest =>
       if '1' ≤ c1 ∧ c1 ≤ '9' then [({st with mo := digitVal c1}, rest)] else []
     | _ => [])
  | .dd =>
    (match s with
     | c1 :: c2 :: rest =>
       if c1 = '3' ∧ ('0' = c2 ∨ c2 = '1') then [({st with dy := 30 + digitVal c2}, rest)]
       else if ('1' ≤ c1 ∧ c1 ≤ '2') ∧ c2.isDigit then
         [({st with dy := 10 * digitVal c1 + digitVal c2}, rest)]
       else if c1 = '0' ∧ '1' ≤ c2 ∧ c2 ≤ '9' then [({st with dy := digitVal c2}, rest)]
       else []
     | _ => []) ++
    (match s with
     | c1 :: rest =>
       if '1' ≤ c1 ∧ c1 ≤ '9' then [({st with dy := digitVal c1}, rest)] else []
     | _ => [])
  | .dH =>
    (match s with
     | c1 :: c2 :: rest =>
       if c1 = '2' ∧ '0' ≤ c2 ∧ c2 ≤ '3' then [(st, rest)]
       else if ('0' ≤ c1 ∧ c1 ≤ '1') ∧ c2.isDigit then [(st, rest)]
       else []
     | _ => []) ++
    (match s with
     | c1 :: rest => if c1.isDigit then [(st, rest)] else []
     | _ => [])
  | .dMin =>
    (match s with
     | c1 :: c2 :: rest =>
       if ('0' ≤ c1 ∧ c1 ≤ '5') ∧ c2.isDigit then [(st, rest)] else []
     | _ => []) ++
    (match s with
     | c1 :: rest => if c1.isDigit then [(st, rest)] else []
     | _ => [])
  | .dS =>
    (match s with
     | c1 :: c2 :: rest =>
       if c1 = '6' ∧ ('0' = c2 ∨ c2 = '1') then [(st, rest)]
       else if ('0' ≤ c1 ∧ c1 ≤ '5') ∧ c2.isDigit then [(st, rest)]
       else []
     | _ => []) ++
    (match s with
     | c1 :: rest => if c1.isDigit then [(st, rest)] else []
     | _ => [])
  | .db =>
    abbrMonths.filterMap (fun nm =>
      (dropPrefixCI nm.1 s).map (fun rest => ({st with mo := nm.2}, rest)))
  | .dB =>
    fullMonths.filterMap (fun nm =>
      (dropPrefixCI nm.1 s).map (fun rest => ({st with mo := nm.2}, rest)))

/-- Backtracking match of a compiled format against a prefix of the input:
the first (in preference order) completion of the whole directive sequence
wins, exactly like `re.match` on the compiled `_strptime` pattern. -/
def seqMatch : List Dir → DtSt → List Char → Option (DtSt × List Char)
  | [], st, s => some (st, s)
  | d :: rest, st, s =>
    (dirMatches d st s).findSome? (fun p => seqMatch rest p.1 p.2)

def isLeap (y : ℕ) : Bool := y % 4 = 0 ∧ (y % 100 ≠ 0 ∨ y % 400 = 0)

def daysInMonth (y mo : ℕ) : ℕ :=
  if mo = 2 then (if isLeap y then 29 else 28)
  else if mo = 4 ∨ mo = 6 ∨ mo = 9 ∨ mo = 11 then 30
  else 31

/-- Calendar validation performed by the `datetime` constructor. -/
def validYMD (st : DtSt) : Bool :=
  1 ≤ st.y ∧ st.y ≤ 9999 ∧ 1 ≤ st.mo ∧ st.mo ≤ 12 ∧
    1 ≤ st.dy ∧ st.dy ≤ daysInMonth st.y st.mo

def padNat (w n : ℕ) : List Char :=
  let ds := Nat.toDigits 10 n
  List.replicate (w - ds.length) '0' ++ ds

/-- `datetime.strftime("%Y%m%d")`. -/
def fmtYYYYMMDD (st : DtSt) : String :=
  String.mk (padNat 4 st.y ++ padNat 2 st.mo ++ padNat 2 st.dy)

/-- One `datetime.strptime(s, fmt)` attempt: the preferred regex match must
consume the entire input ("unconverted data remains" otherwise) and the
parsed values must form a valid calendar date. -/
def tryFmt (fmt : List Dir) (s : String) : Option DtSt :=
  match seqMatch fmt {} s.toList with
  | some (st, []) => if validYMD st then some st else none
  | _ => none

/-- The fixed, ordered format list of `standardize_date_format`. -/
def dateFormats : List (List Dir) :=
  [[.dY, .lit '-', .dm, .lit '-', .dd, .ws, .dH, .lit ':', .dMin, .lit ':', .dS],
   [.dY, .lit '-', .dm, .lit '-', .dd],
   [.dd, .lit '/', .dm, .lit '/', .dY],
   [.dm, .lit '/', .dd, .lit '/', .dY],
   [.dY, .lit '/', .dm, .lit '/', .dd],
   [.dY, .dm, .dd],
   [.dd, .lit '-', .dm, .lit '-', .dY],
   [.dm, .lit '-', .dd, .lit '-', .dY],
   [.db, .ws, .dd, .lit ',', .ws, .dY],
   [.dd, .ws, .db, .ws, .dY],
   [.dB, .ws, .dd, .lit ',', .ws, .dY],
   [.dd, .ws, .dB, .ws, .dY],
   [.dY, .lit '.', .dm, .lit '.', .dd],
   [.dd, .lit '.', .dm, .lit '.', .dY],
   [.dm, .lit '.', .dd, .lit '.', .dY],
   [.dY, .lit '/', .dm, .lit '/', .dd, .ws, .dH, .lit ':', .dMin, .lit ':', .dS],
   [.dd, .lit '-', .db, .lit '-', .dY],
   [.dd, .lit '-', .dB, .lit '-', .dY],
   [.dY, .lit '-', .db, .lit '-', .dd],
   [.dY, .lit '-', .dB, .lit '-', .dd]]

/-- The `for date_format in date_formats` loop: first successful parse
wins and is re-formatted as `YYYYMMDD`. -/
def tryFormatsLoop : List (List Dir) → String → Option String
  | [], _ => none
  | f :: rest, s =>
    match tryFmt f s with
    | some st => some (fmtYYYYMMDD st)
    | none => tryFormatsLoop rest s

/-- `app.Utils.standardize_date_format` on a string input: falsy (empty)
input returns `None` immediately; otherwise the ordered format list is
tried and the first success is returned as `YYYYMMDD`. -/
def standardizeDateFormat (s : String) : Option String :=
  if s = "" then none else tryFormatsLoop dateFormats s

/-!
## Python values, dicts and records

Query records are Python dicts whose values are strings, `None`, or nested
dicts (the `individual_details` / `institution_details` sub-objects).
Dicts are association lists with unique keys maintained by
insert-overwrite, preserving insertion order like Python dicts.
-/

/-- A Python scalar/record value as it appears in a query record. -/
inductive PyVal where
  | vnone
  | vstr (s : String)
  | vdict (entries : List (String × PyVal))

/-- Python truthiness for the values above (`bool(x)`). -/
def pyTruthy : PyVal → Bool
  | .vnone => false
  | .vstr s => ¬ (s = "")
  | .vdict entries => ¬ entries.isEmpty

/-- `pd.isna(x)` on such a value (`None` is the only NA here). -/
def pyIsNa : PyVal → Bool
  | .vnone => true
  | _ => false

/-- `x == ''` for such a value. -/
def pyEqEmptyStr : PyVal → Bool
  | .vstr s => s = ""
  | _ => false

/-- `isinstance(x, str)`. -/
def pyIsStr : PyVal → Bool
  | .vstr _ => true
  | _ => false

/-- `str(x)`.  The rendering of a nested dict is irrelevant to every claim
(no claim feeds a dict into a similarity comparison); any fixed non-empty
placeholder is used. -/
def pyStr : PyVal → String
  | .vnone => "None"
  | .vstr s => s
  | .vdict _ => "pydict"

/-- Generic association-list lookup (first occurrence of the key). -/
def aLookup {α : Type} (d : List (String × α)) (k : String) : Option α :=
  (d.find? (fun e => e.1 = k)).map (·.2)

/-- Generic association-list insert with Python-dict overwrite semantics:
overwrite in place if the key exists, else append. -/
def aInsert {α : Type} (d : List (String × α)) (k : String) (v : α) :
    List (String × α) :=
  if (d.find? (fun e => e.1 = k)).isSome then
    d.map (fun e => if e.1 = k then (k, v) else e)
  else d ++ [(k, v)]

/-- A Python dict (string keys), with insertion order. -/
abbrev PyDict := List (String × PyVal)

/-- `d.get(k)` (returns `None`-as-`Option` when absent). -/
def pyGet (d : PyDict) (k : String) : Option PyVal :=
  aLookup d k

/-- `d.get(k)` with Python's `None` default materialized. -/
def pyGetD (d : PyDict) (k : String) : PyVal :=
  (pyGet d k).getD .vnone

/-- `d[k] = v`: overwrite in place if the key exists, else append. -/
def pyInsert (d : PyDict) (k : String) (v : PyVal) : PyDict :=
  aInsert d k v

/-- `d.copy()` followed by `d.update(other)`. -/
def pyUpdate (d other : PyDict) : PyDict :=
  other.foldl (fun acc e => pyInsert acc e.1 e.2) d

/-- Build a dict from a key/value sequence (dict comprehension): later
occurrences of a key overwrite earlier ones. -/
def pyDictOf (l : List (String × PyVal)) : PyDict :=
  l.foldl (fun acc e => pyInsert acc e.1 e.2) []

/-- Association-list lookup used for weight vectors (`Dict[str, float]`). -/
def wLookup (w : List (String × ℚ)) (k : String) : Option ℚ :=
  aLookup w k

/-- `weights.get(k, 0)`. -/
def wGetD (w : List (String × ℚ)) (k : String) : ℚ :=
  (wLookup w k).getD 0

/-- Sum of the values of a weight dict (`sum(weights.values())`). -/
def wSum (w : List (String × ℚ)) : ℚ :=
  (w.map (·.2)).sum

/-- `weights[k] = v` on a weight dict (key known to exist or appended). -/
def wSet (w : List (String × ℚ)) (k : String) (v : ℚ) : List (String × ℚ) :=
  aInsert w k v

/-- Python `round(x, 2)` on exact rationals (round-half-up model). -/
def round2 (q : ℚ) : ℚ :=
  ((round (q * 100) : ℤ) : ℚ) / 100

/-!
## Weight resolution (`app.components.WeightageComponent.WeightCalculator`)
-/

/-- `WeightCalculator.FIELD_MAPPING`: standard field name → Excel column. -/
def wFieldMap : List (String × String) :=
  [("citizenship_no", "Citizenship Number"),
   ("grandfathers_name", "Grandfathers Name"),
   ("fathers_name", "Fathers Name"),
   ("name", "Name"),
   ("dob", "DOB"),
   ("account_no", "Account Number"),
   ("pan_no", "PAN"),
   ("spouse_name", "Spouse Name"),
   ("registration_no", "Registration")]

/-- `WeightCalculator.ENTITY_CONDITIONS`: note the key is the literal
string `institutional` (not `institution`). -/
def entityConditionsOf (e : String) : List String :=
  if e = "institutional" then ["name", "pan_no", "registration_no"]
  else if e = "account" then ["name", "account_no"]
  else if e = "individual" then
    ["name", "fathers_name", "dob", "citizenship_no", "grandfathers_name",
     "spouse_name"]
  else []

/-- The keys of `ENTITY_CONDITIONS`. -/
def entityKeys : List String := ["institutional", "account", "individual"]

/-- `','.join(...)` modelled on its argument list. -/
def joinCommas : List String → String
  | [] => ""
  | [s] => s
  | s :: rest => s ++ "," ++ joinCommas rest

/-- `str.split(',')` (character-level, kernel-reducible). -/
def splitCommaAux : List Char → List Char → List String
  | [], acc => [String.mk acc.reverse]
  | c :: rest, acc =>
    if c = ',' then String.mk acc.reverse :: splitCommaAux rest []
    else splitCommaAux rest (c :: acc)

/-- `WeightCalculator._normalize_condition`: split a condition string on
commas, strip and lower-case each field, drop empties; the result stands
for the frozenset of its elements. -/
def normalizeCondition (s : String) : List String :=
  ((splitCommaAux s.toList []).map (fun f => pyLower (pyStrip f))).filter
    (fun f => ¬ (f = ""))

/-- Frozenset equality of the two element lists. -/
def setEqS (a b : List String) : Bool :=
  a.all (fun x => x ∈ b) ∧ b.all (fun x => x ∈ a)

/-- One row of the loaded weightage table: the `Entity` column, the raw
`Condition` text, and the numeric weight cells keyed by Excel column name
(`none` inside the option models a NaN cell, a missing key a missing
column). -/
structure WRow where
  entity : String
  condition : String
  cells : List (String × Option ℚ)

/-- Python's `max(fields, key=weights.get)`: first maximal element. -/
def firstMaxBy (val : String → ℚ) : String → List String → String
  | best, [] => best
  | best, x :: xs =>
    if val best < val x then firstMaxBy val x xs else firstMaxBy val best xs

/-- `[k for k in weights.keys() if k in valid_fields and weights.get(k, 0) > 0]`. -/
def vpfList (w : List (String × ℚ)) (validFields : List String) :
    List String :=
  (w.map (·.1)).filter (fun k => k ∈ validFields ∧ 0 < wGetD w k)

/-- `WeightCalculator._adjust_for_rounding`: if the weights do not already
round to 1.00, add the residual to the first field of maximal weight among
the positive valid fields. -/
def adjustForRounding (w : List (String × ℚ)) (validFields : List String) :
    List (String × ℚ) :=
  if w.isEmpty ∨ validFields.isEmpty then w
  else if wSum w = 0 ∨ round2 (wSum w) = 1 then w
  else
    match vpfList w validFields with
    | [] => w
    | k0 :: ks =>
      wSet w (firstMaxBy (wGetD w) k0 ks)
        (round2 (wGetD w (firstMaxBy (wGetD w) k0 ks) + round2 (1 - wSum w)))

/-- Build a weight dict from a key/value sequence with Python dict
semantics (later assignments overwrite). -/
def wDictOf (l : List (String × ℚ)) : List (String × ℚ) :=
  l.foldl (fun acc e => wSet acc e.1 e.2) []

/-- `WeightCalculator._get_equal_weights`. -/
def equalWeights (conditions : List String) : List (String × ℚ) :=
  if conditions.isEmpty then []
  else
    adjustForRounding
      (wDictOf (conditions.map
        (fun c => (c, round2 (1 / (conditions.length : ℚ))))))
      conditions

/-- The raw weight a table row contributes for one standard field: the
cell under the mapped Excel column, if present, numeric (non-NaN) and
strictly positive. -/
def cellWeight (row : WRow) (k : String) : Option ℚ :=
  match wFieldMap.find? (fun p => p.1 = k) with
  | some p =>
    match row.cells.find? (fun q' => q'.1 = p.2) with
    | some cell =>
      match cell.2 with
      | some wv => if 0 < wv then some wv else none
      | none => none
    | none => none
  | none => none

/-- The raw-weight loop of `get_weights`: walk the valid conditions,
collect positive non-NaN cell weights into a dict and accumulate the
total. -/
def rawLoop (row : WRow) (valid : List String) : List (String × ℚ) × ℚ :=
  valid.foldl (fun acc k =>
    match cellWeight row k with
    | some wv => (wSet acc.1 k wv, acc.2 + wv)
    | none => acc) ([], 0)

/-- `{key: round(weight / total, 2) for ...}` over the raw weights. -/
def normalizedOf (row : WRow) (valid : List String) : List (String × ℚ) :=
  (rawLoop row valid).1.map
    (fun kv => (kv.1, round2 (kv.2 / (rawLoop row valid).2)))

/-- The zero-fill loop of `get_weights`: every provided condition that is
applicable to the entity but absent from the normalized weights is added
with weight 0.0. -/
def withZerosOf (es conditions : List String)
    (normalized : List (String × ℚ)) : List (String × ℚ) :=
  conditions.foldl (fun acc k =>
    if k ∈ es ∧ (wLookup acc k).isNone then acc ++ [(k, 0)]
    else acc) normalized

/-- The `valid_conditions` filter of `get_weights`: conditions that exist
in `FIELD_MAPPING` and are applicable to the entity. -/
def validCondsOf (e : String) (conditions : List String) : List String :=
  conditions.filter
    (fun c => (wFieldMap.find? (fun p => p.1 = c)).isSome ∧
      c ∈ entityConditionsOf e)

/-- The condition frozenset of the request: the valid conditions mapped to
Excel column names, comma-joined and re-normalized. -/
def condSetOf (valid : List String) : List String :=
  normalizeCondition (joinCommas (valid.filterMap
    (fun c => (wFieldMap.find? (fun p => p.1 = c)).map (·.2))))

/-- Row lookup of `get_weights`: rows whose lower-cased `Entity` matches
and whose condition frozenset equals the request's. -/
def rowMatchesOf (df : List WRow) (e : String) (condSet : List String) :
    List WRow :=
  df.filter (fun r =>
    pyLower r.entity = e ∧ setEqS (normalizeCondition r.condition) condSet)

/-- `WeightCalculator.get_weights`.  Raised exceptions are modelled as
`Except.error` with a short tag for the message. -/
def getWeights (df : List WRow) (entity : String) (conditions : List String) :
    Except String (List (String × ℚ)) :=
  if df.isEmpty then .error "empty weightage table"
  else if conditions.isEmpty then .error "no conditions provided"
  else if entity = "" then .error "invalid entity"
  else if ¬ (pyLower (pyStrip entity) ∈ entityKeys) then
    .error "unknown entity type"
  else if (validCondsOf (pyLower (pyStrip entity)) conditions).isEmpty then
    .error "no valid conditions found"
  else
    match rowMatchesOf df (pyLower (pyStrip entity))
      (condSetOf (validCondsOf (pyLower (pyStrip entity)) conditions)) with
    | [] => .ok (equalWeights (validCondsOf (pyLower (pyStrip entity)) conditions))
    | row :: _ =>
      if (rawLoop row (validCondsOf (pyLower (pyStrip entity)) conditions)).2
          = 0 then
        .ok (equalWeights (validCondsOf (pyLower (pyStrip entity)) conditions))
      else
        .ok (adjustForRounding
          (withZerosOf (entityConditionsOf (pyLower (pyStrip entity)))
            conditions
            (normalizedOf row (validCondsOf (pyLower (pyStrip entity))
              conditions)))
          (validCondsOf (pyLower (pyStrip entity)) conditions))

/-- `FuzzyMatcherComponent._determine_entity_type`, fallback branches. -/
def detFallback (record : PyDict) : String :=
  if pyTruthy (pyGetD record "company_registration_number") ∨
      pyTruthy (pyGetD record "company_name") then "institution"
  else if pyTruthy (pyGetD record "citizenship_number") ∨
      pyTruthy (pyGetD record "fathers_name") ∨
      pyTruthy (pyGetD record "person_name") then "individual"
  else "individual"

/-- `FuzzyMatcherComponent._determine_entity_type`: an explicit truthy
string `entity_type` wins (lower-cased), else infer from
institution-specific then individual-specific fields, defaulting to
`individual`. -/
def determineEntityType (record : PyDict) : String :=
  match pyGet record "entity_type" with
  | some v => if pyTruthy v ∧ pyIsStr v then pyLower (pyStr v)
    else detFallback record
  | none => detFallback record

/-- `FuzzyMatcherComponent._get_normalized_weights`: any exception from
`get_weights` (including the unknown-entity `ValueError`) is caught and
silently replaced by equal weights `1/n` over the available criteria. -/
def getNormalizedWeights (df : List WRow) (record : PyDict)
    (criteria : List String) : List (String × ℚ) :=
  match getWeights df (determineEntityType record) criteria with
  | .ok w => w
  | .error _ =>
    if criteria.isEmpty then []
    else wDictOf (criteria.map (fun c => (c, 1 / (criteria.length : ℚ))))

/-!
## The matching engine (`FuzzyMatcherComponent.match` / `get_ticket_matches`)

`INDIVIDUAL_FIELD_MAPPING`, `INSTITUTION_FIELD_MAPPING` and
`MAX_MATCHES_TO_STORE` are imported by the component but not defined in
the sources available here, so the engine is parameterized over them:
a field mapping is a list of entries
`(standard_field, (cbs_column, source_field))`, and the maximum result
count is an arbitrary natural number, exactly the shapes the spec
describes for the Field Mapper and the ranking policy constant.
-/

/-- One reference-dataset row: CBS column name → cell (`none` = NaN). -/
abbrev RowT := List (String × Option String)

/-- A pandas DataFrame: its column list and its rows. -/
structure DFrame where
  cols : List String
  rows : List RowT

/-- A field mapping: standard field → (CBS column, source field). -/
abbrev FieldMap := List (String × (String × String))

def fmGet (fm : FieldMap) (f : String) : Option (String × String) :=
  (fm.find? (fun e => e.1 = f)).map (·.2)

/-- Cell access on a row (a missing key is NaN). -/
def rowCell (r : RowT) (c : String) : Option String :=
  ((r.find? (fun e => e.1 = c)).map (·.2)).join

/-- `astype(str)` of one cell: NaN renders as the string `nan`. -/
def cellToStr : Option String → String
  | none => "nan"
  | some s => s

/-- Python `str.zfill(width)` (sign-aware left zero-padding). -/
def zfill (w : ℕ) (s : String) : String :=
  let l := s.toList
  if w ≤ l.length then s
  else
    match l with
    | c :: rest =>
      if c = '+' ∨ c = '-' then
        String.mk (c :: (List.replicate (w - l.length) '0' ++ rest))
      else String.mk (List.replicate (w - l.length) '0' ++ l)
    | [] => String.mk (List.replicate w '0')

/-- Step 2 of `match`: flatten the entity-type-specific detail sub-object
into the top level (nested keys override top-level keys). -/
def flattenRecord (et : String) (source : PyDict) : PyDict :=
  if et = "individual" then
    match pyGet source "individual_details" with
    | some (.vdict d) => pyUpdate source d
    | _ => source
  else if et = "institution" then
    match pyGet source "institution_details" with
    | some (.vdict d) => pyUpdate source d
    | _ => source
  else source

/-- `{str(k).lower(): k for k in flat_source_record.keys() if k}`. -/
def lowerKeyMap (flat : PyDict) : List (String × String) :=
  (flat.map (·.1)).foldl
    (fun acc k => if k = "" then acc else aInsert acc (pyLower k) k) []

/-- Step 3 of `match`: map the flattened record onto standard fields. -/
def mapRecord (fm : FieldMap) (flat : PyDict) : PyDict :=
  let lower := lowerKeyMap flat
  fm.foldl (fun acc e =>
    match aLookup lower (pyLower e.2.2) with
    | some origKey => pyInsert acc e.1 (pyGetD flat origKey)
    | none => acc) []

/-- `_get_available_criteria`: mapped fields with a non-NA truthy value. -/
def availCriteria (mapped : PyDict) : List String :=
  (mapped.filter (fun e => ¬ pyIsNa e.2 ∧ pyTruthy e.2)).map (·.1)

/-- Step 5 of `match`: zero-pad the CBS account-number column to 16
digits on the working copy of the reference data. -/
def zfillAccountRows (fm : FieldMap) (cbs : DFrame) : List RowT :=
  match fmGet fm "account_no" with
  | some p =>
    if ¬ (p.1 = "") ∧ p.1 ∈ cbs.cols then
      cbs.rows.map (fun r =>
        aInsert r p.1 (some (zfill 16 (cellToStr (rowCell r p.1)))))
    else cbs.rows
  | none => cbs.rows

/-- The `str(source_value)` sent to the batch similarity for a field
(account numbers zero-padded to 16 first, in both the prefilter and the
final scoring). -/
def fieldQueryStr (mapped : PyDict) (f : String) : String :=
  let sv := pyGetD mapped f
  if f = "account_no" then zfill 16 (pyStr sv) else pyStr sv

/-- The common skip test of the prefilter loop and the scoring loop: the
mapped CBS column must be a non-empty name present in the columns and the
source value must be non-NA and not the empty string. -/
def fieldUsable (fm : FieldMap) (cols : List String) (mapped : PyDict)
    (f : String) : Bool :=
  match fmGet fm f with
  | none => false
  | some p =>
    ¬ (p.1 = "") ∧ (¬ pyIsNa (pyGetD mapped f)) ∧
      (¬ pyEqEmptyStr (pyGetD mapped f)) ∧ p.1 ∈ cols

/-- Per-row value of `_calculate_batch_text_similarity` for a field. -/
def fieldTextSim (fm : FieldMap) (mapped : PyDict) (f : String) (r : RowT) :
    ℚ :=
  match fmGet fm f with
  | none => 0
  | some p => textCellSim (rowCell r p.1) (fieldQueryStr mapped f)

/-- `date_series.apply(standardize_date_format).fillna("")` on one cell
(a NaN cell standardizes to `None` and is filled with the empty string). -/
def cellDateStd : Option String → String
  | none => ""
  | some s => (standardizeDateFormat s).getD ""

/-- One entry of the similarity series produced by
`_calculate_batch_date_similarity`: zero when the query value is
falsy/NaN or fails to standardize (those cases early-return the constant
0.0 series, which agrees with the cellwise zero since the tests do not
read the cell), otherwise the `fuzz.ratio` of the standardized dates as
`np.uint8`, divided by 100. -/
def dateCellSim (cell : Option String) (q : PyVal) : ℚ :=
  if ¬ pyTruthy q then 0
  else
    match standardizeDateFormat (pyStr q) with
    | none => 0
    | some sq => (pctOf (cellDateStd cell).toList sq.toList : ℚ) / 100

/-- `_calculate_batch_text_similarity` over a column of cells: the
query-side early returns (`series.empty`, NA/empty query, query empty
after preprocessing) all yield the zero series, which coincides with
mapping `textCellSim` over the cells. -/
def batchTextSim (cells : List (Option String)) (q : String) : List ℚ :=
  cells.map (fun cell => textCellSim cell q)

/-- `_calculate_batch_date_similarity` over a column of cells. -/
def batchDateSim (cells : List (Option String)) (q : PyVal) : List ℚ :=
  cells.map (fun cell => dateCellSim cell q)

/-- Per-row value of `_calculate_batch_date_similarity` for a field. -/
def fieldDateSim (fm : FieldMap) (mapped : PyDict) (f : String) (r : RowT) :
    ℚ :=
  match fmGet fm f with
  | none => 0
  | some p => dateCellSim (rowCell r p.1) (pyGetD mapped f)

/-- The criteria scored with date similarity in the scoring loop. -/
def dateCriteria : List String :=
  ["citizenship_issue_date", "registration_date", "pan_issue_date", "dob"]

/-- The similarity series entry used for a criterion in final scoring. -/
def critSim (fm : FieldMap) (mapped : PyDict) (f : String) (r : RowT) : ℚ :=
  if f ∈ dateCriteria then fieldDateSim fm mapped f r
  else fieldTextSim fm mapped f r

/-- Step 7 of `match`: the weighted total score of one row —
`total_scores += similarity_scores[criterion] * weight` over
`weights.items()`, where a criterion has a similarity series iff it is an
available criterion passing the usability test. -/
def totalScore (fm : FieldMap) (cols : List String) (mapped : PyDict)
    (criteria : List String) (weights : List (String × ℚ)) (r : RowT) : ℚ :=
  weights.foldl (fun acc cw =>
    if cw.1 ∈ criteria ∧ fieldUsable fm cols mapped cw.1 then
      acc + critSim fm mapped cw.1 r * cw.2
    else acc) 0

/-- The prefilter cascade's fixed field/threshold list (source order). -/
def prefilterFields : List (String × ℚ) :=
  [("account_no", 7/10), ("citizenship_no", 2/5), ("registration_no", 1/2),
   ("name", 1/2)]

/-- `app.Constants.MAX_CANDIDATES_AFTER_PREFILTER`. -/
def maxCandidatesAfterPrefilter : ℕ := 100

/-- The prefilter cascade loop: for each (field, threshold) in order, skip
fields outside the criteria or unusable fields (or when no candidates
remain), otherwise keep the rows whose batch text similarity reaches the
threshold; stop the cascade (`break`) once the candidate count is at or
below the fixed cap. -/
def runCascade (fm : FieldMap) (cols : List String) (mapped : PyDict)
    (criteria : List String) :
    List (String × ℚ) → List RowT → List RowT
  | [], rows => rows
  | ft :: rest, rows =>
    if ¬ (ft.1 ∈ criteria) ∨ rows.isEmpty then
      runCascade fm cols mapped criteria rest rows
    else if ¬ fieldUsable fm cols mapped ft.1 then
      runCascade fm cols mapped criteria rest rows
    else
      if (rows.filter
          (fun r => decide (ft.2 ≤ fieldTextSim fm mapped ft.1 r))).length ≤
          maxCandidatesAfterPrefilter then
        rows.filter (fun r => decide (ft.2 ≤ fieldTextSim fm mapped ft.1 r))
      else
        runCascade fm cols mapped criteria rest
          (rows.filter (fun r => decide (ft.2 ≤ fieldTextSim fm mapped ft.1 r)))

/-- Everything `match` computes from its inputs before prefiltering:
selected field mapping, mapped record, available criteria, resolved
weights, and the account-padded working rows. -/
structure MatchEnv where
  fm : FieldMap
  cols : List String
  mapped : PyDict
  criteria : List String
  weights : List (String × ℚ)
  rows0 : List RowT

/-- Steps 1–5 of `match` (entity type, mapping, criteria, weights, account
zero-padding). -/
def mkMatchEnv (imap instmap : FieldMap) (df : List WRow) (cbs : DFrame)
    (source : PyDict) : MatchEnv :=
  let et := determineEntityType source
  let fm := if et = "individual" then imap else instmap
  let mapped := mapRecord fm (flattenRecord et source)
  let criteria := availCriteria mapped
  { fm := fm, cols := cbs.cols, mapped := mapped, criteria := criteria,
    weights := getNormalizedWeights df source criteria,
    rows0 := zfillAccountRows fm cbs }

def envTotal (env : MatchEnv) (r : RowT) : ℚ :=
  totalScore env.fm env.cols env.mapped env.criteria env.weights r

/-- The candidate rows surviving the prefilter cascade. -/
def envPre (env : MatchEnv) : List RowT :=
  runCascade env.fm env.cols env.mapped env.criteria prefilterFields env.rows0

/-- The rows reaching the `Matched` result (before sorting/truncation):
prefilter survivors whose total score meets the final threshold. -/
def envMatched (env : MatchEnv) (θ : ℚ) : List RowT :=
  (envPre env).filter (fun r => decide (θ ≤ envTotal env r))

/-- The comparison set for the soundness claim: every working row scored
with the same weighted scoring, no prefiltering, thresholded. -/
def envFullMatched (env : MatchEnv) (θ : ℚ) : List RowT :=
  env.rows0.filter (fun r => decide (θ ≤ envTotal env r))

/-- A returned match: the row, its total score, and its per-criterion
similarity scores (the `*_score` columns). -/
structure Annotated where
  row : RowT
  total : ℚ
  perCrit : List (String × ℚ)
deriving DecidableEq

def annotateRow (env : MatchEnv) (r : RowT) : Annotated :=
  { row := r, total := envTotal env r,
    perCrit := (env.criteria.filter (fieldUsable env.fm env.cols env.mapped)).map
      (fun c => (c, critSim env.fm env.mapped c r)) }

/-- Insertion into a descending-by-total-score list: one step of the
concrete sort the model uses to keep `match` a function. -/
def insDesc (x : Annotated) : List Annotated → List Annotated
  | [] => [x]
  | y :: ys => if x.total < y.total then y :: insDesc x ys else x :: y :: ys

/-- One concrete descending-order permutation (insertion sort by total
score), used so that the modelled `match` stays a function.
`sort_values("total_score", ascending=False)` runs with the default
`kind="quicksort"`, which pandas documents as not stable, so the program
promises only *some* descending order — the relation `IsDescSortOf`
below — and nothing proved here relies on how `sortDesc` orders equal
scores. -/
def sortDesc : List Annotated → List Annotated
  | [] => []
  | x :: xs => insDesc x (sortDesc xs)

/-- What `sort_values("total_score", ascending=False)` guarantees of its
result: a permutation of the input that is ordered by descending total
score.  The default `kind="quicksort"` is not stable, so the order among
equal scores is unspecified; any list satisfying this relation is an
admissible outcome of the sort. -/
def IsDescSortOf (s l : List Annotated) : Prop :=
  s.Perm l ∧ s.Pairwise (fun a b => b.total ≤ a.total)

/-- `FuzzyMatcherComponent.match`: returns the annotated matches, sorted
descending by total score and truncated to `maxMatches`
(`MAX_MATCHES_TO_STORE`); the empty list models the empty DataFrame
returned on empty input, empty criteria, empty prefilter result, or no
row meeting the threshold. -/
def matchFn (imap instmap : FieldMap) (maxMatches : ℕ) (df : List WRow)
    (cbs : DFrame) (source : PyDict) (θ : ℚ) : List Annotated :=
  if cbs.rows.isEmpty then []
  else if (mkMatchEnv imap instmap df cbs source).criteria.isEmpty then []
  else if (envPre (mkMatchEnv imap instmap df cbs source)).isEmpty then []
  else if (envMatched (mkMatchEnv imap instmap df cbs source) θ).isEmpty then []
  else
    (sortDesc ((envMatched (mkMatchEnv imap instmap df cbs source) θ).map
      (annotateRow (mkMatchEnv imap instmap df cbs source)))).take maxMatches

/-- `FuzzyMatcherComponent.get_ticket_matches`: stamps the entity type on
the record, matches, and reports `Matched`/`Unmatched` with the ticket
name (the `Error` branch is reachable only through a Python exception). -/
def getTicketMatches (imap instmap : FieldMap) (maxMatches : ℕ)
    (df : List WRow) (cbs : DFrame) (source : PyDict) (ticketId : String)
    (θ : ℚ) : String × List Annotated × String :=
  let et := determineEntityType source
  let source1 := pyInsert source "entity_type" (.vstr et)
  let nameField := if et = "individual" then "person_name" else "company_name"
  let flat := flattenRecord et source1
  let nameVal :=
    match pyGet flat nameField with
    | none => ""
    | some v => pyStr v
  let ticketName :=
    "ticket_" ++ ticketId ++ "_" ++ String.mk (removeSpaces nameVal.toList)
  let ms := matchFn imap instmap maxMatches df cbs source1 θ
  if ms.isEmpty then ("Unmatched", [], ticketName)
  else ("Matched", ms, ticketName)

/-!
## Mutation model for `match`

Python passes DataFrames by reference, so whether `match` mutates its
caller's data is a statement about the heap.  The heap holds the
allocated DataFrames (a caller passes `cbs_df` as an index into it) and
the component's loaded weight table `self.weights_df`.
-/

/-- The mutable state visible across a `match` call: every allocated
DataFrame (callers hold indices into this list) and the loaded weight
table. -/
structure Heap where
  frames : List DFrame
  wtable : List WRow

/-- `FuzzyMatcherComponent.match` as a heap transformer.  The body runs
`cbs_df = cbs_df.copy()` and then assigns the zero-padded account column
in place — but on the fresh copy only, which the model allocates as a new
frame at the end of the heap; `get_weights` only reads and filters
`self.weights_df`, so the weight table is threaded through unchanged. -/
def matchHeap (imap instmap : FieldMap) (maxMatches : ℕ) (source : PyDict)
    (θ : ℚ) (h : Heap) (refIdx : ℕ) : List Annotated × Heap :=
  match h.frames.get? refIdx with
  | none => ([], h)
  | some cbs =>
    (matchFn imap instmap maxMatches h.wtable cbs source θ,
     { frames := h.frames ++
         [⟨cbs.cols,
           zfillAccountRows
             (if determineEntityType source = "individual" then imap
              else instmap) cbs⟩],
       wtable := h.wtable })

/-!
## Concrete example inputs

Small field mappings, reference frames, weight tables and query records
used below to instantiate the general theorems on closed data.
-/

def imapEx : FieldMap := [("name", ("NAME", "name"))]

def cbsEx1 : DFrame :=
  ⟨["NAME"], [[("NAME", some "AB"), ("ID", some "1")],
              [("NAME", some "AB"), ("ID", some "2")]]⟩

def cbsEx2 : DFrame :=
  ⟨["NAME"], [[("NAME", some "AB"), ("ID", some "2")],
              [("NAME", some "AB"), ("ID", some "1")]]⟩

def srcEx : PyDict :=
  [("entity_type", PyVal.vstr "individual"), ("name", PyVal.vstr "AB")]

def imapC1 : FieldMap :=
  [("name", ("NAME", "name")), ("citizenship_no", ("CTZ", "citizenship_no"))]

def cbsC1 : DFrame :=
  ⟨["NAME", "CTZ"], [[("NAME", some "Jon Smith"), ("CTZ", some "123")],
                     [("NAME", some "Jon Smth"), ("CTZ", some "999")]]⟩

def srcC1 : PyDict :=
  [("entity_type", PyVal.vstr "individual"),
   ("name", PyVal.vstr "Jon Smith"),
   ("citizenship_no", PyVal.vstr "123")]

def dfEx : List WRow :=
  [⟨"individual", "Name, DOB", [("Name", some 7), ("DOB", some 3)]⟩]

def cbsAcme : DFrame := ⟨["NAME"], [[("NAME", some "ACME")]]⟩

def srcAlien : PyDict :=
  [("entity_type", PyVal.vstr "alien"), ("company_name", PyVal.vstr "ACME")]

def instmapAcme : FieldMap := [("name", ("NAME", "company_name"))]

/-- The annotated thresholded rows of the `cbsEx1` example run, as they
enter the sort. -/
def annEx1 : List Annotated :=
  (envMatched (mkMatchEnv imapEx [] [] cbsEx1 srcEx) (1/2)).map
    (annotateRow (mkMatchEnv imapEx [] [] cbsEx1 srcEx))

/-- The annotated thresholded rows of the `cbsEx2` example run. -/
def annEx2 : List Annotated :=
  (envMatched (mkMatchEnv imapEx [] [] cbsEx2 srcEx) (1/2)).map
    (annotateRow (mkMatchEnv imapEx [] [] cbsEx2 srcEx))

/-!
## Association-list infrastructure lemmas
-/

theorem find?_eq_none_iff {α : Type} (d : List (String × α)) (k : String) :
    d.find? (fun e => e.1 = k) = none ↔ k ∉ d.map (·.1) := by
  rw [List.find?_eq_none]
  constructor
  · intro h hk
    rcases List.mem_map.mp hk with ⟨e, he, hek⟩
    have := h e he
    simp [hek] at this
  · intro h e he
    simp only [decide_eq_true_eq]
    intro hek
    exact h (List.mem_map.mpr ⟨e, he, hek⟩)

theorem wSet_of_not_mem {α : Type} (d : List (String × α)) (k : String)
    (v : α) (h : k ∉ d.map (·.1)) : aInsert d k v = d ++ [(k, v)] := by
  unfold aInsert
  rw [(find?_eq_none_iff d k).mpr h]
  simp

theorem aInsert_keys_of_mem {α : Type} (d : List (String × α)) (k : String)
    (v : α) (h : k ∈ d.map (·.1)) :
    (aInsert d k v).map (·.1) = d.map (·.1) := by
  unfold aInsert
  have : (d.find? (fun e => e.1 = k)).isSome := by
    rcases (d.find? (fun e => e.1 = k)).eq_none_or_eq_some with hn | ⟨e, he⟩
    · exact absurd ((find?_eq_none_iff d k).mp hn) (by simpa using h)
    · simp [he]
  rw [if_pos this, List.map_map]
  apply List.map_congr_left
  intro e _
  by_cases hek : e.1 = k
  · simp [hek]
  · simp [hek]

theorem mem_aInsert {α : Type} (d : List (String × α)) (k : String) (v : α)
    (kv : String × α) (h : kv ∈ aInsert d k v) : kv = (k, v) ∨ kv ∈ d := by
  unfold aInsert at h
  split at h
  · rcases List.mem_map.mp h with ⟨e, he, hek⟩
    by_cases h1 : e.1 = k
    · left
      simp only [if_pos h1] at hek
      exact hek.symm
    · right
      simp only [if_neg h1] at hek
      exact hek ▸ he
  · rcases List.mem_append.mp h with h1 | h1
    · right; exact h1
    · left; simpa using h1

theorem aLookup_isSome_iff {α : Type} (d : List (String × α)) (k : String) :
    (d.find? (fun e => e.1 = k)).isSome ↔ k ∈ d.map (·.1) := by
  constructor
  · intro h
    rcases Option.isSome_iff_exists.mp h with ⟨e, he⟩
    have hm := List.mem_of_find?_eq_some he
    have hp := List.find?_some he
    simp only [decide_eq_true_eq] at hp
    exact List.mem_map.mpr ⟨e, hm, hp⟩
  · intro h
    by_contra hns
    have hnone : d.find? (fun e => e.1 = k) = none := by
      rcases hf : d.find? (fun e => e.1 = k) with _ | e
      · exact hf
      · rw [hf] at hns; simp at hns
    exact absurd ((find?_eq_none_iff d k).mp hnone) (by simpa using h)

theorem aInsert_keys_of_not_mem {α : Type} (d : List (String × α))
    (k : String) (v : α) (h : k ∉ d.map (·.1)) :
    (aInsert d k v).map (·.1) = d.map (·.1) ++ [k] := by
  rw [wSet_of_not_mem d k v h]
  simp

theorem aInsert_keys_nodup {α : Type} (d : List (String × α)) (k : String)
    (v : α) (h : (d.map (·.1)).Nodup) :
    ((aInsert d k v).map (·.1)).Nodup := by
  by_cases hk : k ∈ d.map (·.1)
  · rw [aInsert_keys_of_mem d k v hk]; exact h
  · rw [aInsert_keys_of_not_mem d k v hk]
    refine List.Nodup.append h (List.nodup_singleton k) ?_
    intro a ha hb
    simp only [List.mem_singleton] at hb
    exact hk (hb ▸ ha)

theorem foldl_aInsert_keys_nodup {α β : Type} (f : β → String)
    (g : β → α) (l : List β) :
    ∀ (acc : List (String × α)), (acc.map (·.1)).Nodup →
      ((l.foldl (fun acc e => aInsert acc (f e) (g e)) acc).map (·.1)).Nodup := by
  induction l with
  | nil => intro acc h; exact h
  | cons x xs ih =>
    intro acc h
    exact ih (aInsert acc (f x) (g x)) (aInsert_keys_nodup acc (f x) (g x) h)

theorem aLookup_mem {α : Type} (d : List (String × α)) (k : String) (v : α)
    (h : aLookup d k = some v) : (k, v) ∈ d := by
  unfold aLookup at h
  rcases hf : d.find? (fun e => e.1 = k) with _ | e
  · rw [hf] at h; exact absurd h (by simp)
  · rw [hf] at h
    have hv : e.2 = v := by
      have h2 : some e.2 = some v := h
      exact Option.some.inj h2
    have hm := List.mem_of_find?_eq_some hf
    have hp := List.find?_some hf
    simp only [decide_eq_true_eq] at hp
    have he : e = (k, v) := by
      rcases e with ⟨ek, ev⟩
      simp only at hp hv
      rw [hp, hv]
    exact he ▸ hm

theorem aLookup_append_left {α : Type} (d1 d2 : List (String × α))
    (k : String) (h : k ∈ d1.map (·.1)) :
    aLookup (d1 ++ d2) k = aLookup d1 k := by
  unfold aLookup
  rw [List.find?_append]
  rcases hf : d1.find? (fun e => e.1 = k) with _ | e
  · exact absurd ((find?_eq_none_iff d1 k).mp hf) (by simpa using h)
  · rw [hf]
    rfl

theorem aLookup_value_le_wSum (w : List (String × ℚ)) (k : String) (v : ℚ)
    (hv : aLookup w k = some v) (hnn : ∀ kv ∈ w, 0 ≤ kv.2) : v ≤ wSum w := by
  induction w with
  | nil => simp [aLookup] at hv
  | cons e rest ih =>
    by_cases hk : e.1 = k
    · have : v = e.2 := by
        unfold aLookup at hv
        rw [List.find?_cons_of_pos _ (by simpa using hk)] at hv
        simpa using hv.symm
      subst this
      have : 0 ≤ wSum rest := by
        unfold wSum
        apply List.sum_nonneg
        intro x hx
        rcases List.mem_map.mp hx with ⟨kv, hkv, hkvx⟩
        exact hkvx ▸ hnn kv (List.mem_cons_of_mem e hkv)
      unfold wSum
      simp only [List.map_cons, List.sum_cons]
      unfold wSum at this
      linarith
    · have hv' : aLookup rest k = some v := by
        unfold aLookup at hv ⊢
        rwa [List.find?_cons_of_neg _ (by simpa using hk)] at hv
      have h1 := ih hv' (fun kv hkv => hnn kv (List.mem_cons_of_mem e hkv))
      have h2 : 0 ≤ e.2 := hnn e (List.mem_cons_self e rest)
      unfold wSum at h1 ⊢
      simp only [List.map_cons, List.sum_cons]
      linarith

theorem wSum_append (w1 w2 : List (String × ℚ)) :
    wSum (w1 ++ w2) = wSum w1 + wSum w2 := by
  unfold wSum
  simp

theorem wSum_aInsert_mem (w : List (String × ℚ)) (k : String) (v v0 : ℚ)
    (hnd : (w.map (·.1)).Nodup) (hv0 : aLookup w k = some v0) :
    wSum (aInsert w k v) = wSum w - v0 + v := by
  induction w with
  | nil => simp [aLookup] at hv0
  | cons e rest ih =>
    by_cases hk : e.1 = k
    · have hv0' : v0 = e.2 := by
        unfold aLookup at hv0
        rw [List.find?_cons_of_pos _ (by simpa using hk)] at hv0
        simpa using hv0.symm
      subst hv0'
      have hknot : k ∉ rest.map (·.1) := by
        simp only [List.map_cons, List.nodup_cons] at hnd
        exact hk ▸ hnd.1
      unfold aInsert
      rw [if_pos (by
        rw [aLookup_isSome_iff]
        exact List.mem_map.mpr ⟨e, List.mem_cons_self e rest, hk⟩)]
      have hrest : rest.map (fun e => if e.1 = k then (k, v) else e) = rest := by
        conv_rhs => rw [← List.map_id rest]
        apply List.map_congr_left
        intro x hx
        have : ¬ x.1 = k := fun hxk =>
          hknot (List.mem_map.mpr ⟨x, hx, hxk⟩)
        simp [this]
      simp only [List.map_cons, if_pos hk]
      rw [hrest]
      unfold wSum
      simp only [List.map_cons, List.sum_cons]
      ring
    · have hv0' : aLookup rest k = some v0 := by
        unfold aLookup at hv0 ⊢
        rwa [List.find?_cons_of_neg _ (by simpa using hk)] at hv0
      have hnd' : (rest.map (·.1)).Nodup := by
        simp only [List.map_cons, List.nodup_cons] at hnd
        exact hnd.2
      have ihh := ih hnd' hv0'
      have hsome : (rest.find? (fun e => e.1 = k)).isSome := by
        rw [aLookup_isSome_iff]
        rcases hf : rest.find? (fun e => e.1 = k) with _ | x
        · unfold aLookup at hv0'; rw [hf] at hv0'; simp at hv0'
        · rw [← aLookup_isSome_iff, hf]; simp
      unfold aInsert at ihh ⊢
      rw [if_pos hsome] at ihh
      rw [if_pos (by
        rw [List.find?_cons_of_neg _ (by simpa using hk)]
        exact hsome)]
      simp only [List.map_cons, if_neg hk]
      unfold wSum at ihh ⊢
      simp only [List.map_cons, List.sum_cons]
      linarith [ihh]

/-!
## Rounding lemmas (`round(x, 2)` on exact rationals)
-/

/-- A rational that is an integer multiple of 1/100 ("cent"). -/
def IsCent (q : ℚ) : Prop := ∃ k : ℤ, q = (k : ℚ) / 100

theorem round2_isCent (q : ℚ) : IsCent (round2 q) := ⟨round (q * 100), rfl⟩

theorem isCent_zero : IsCent 0 := ⟨0, by norm_num⟩

theorem isCent_add {a b : ℚ} (ha : IsCent a) (hb : IsCent b) :
    IsCent (a + b) := by
  rcases ha with ⟨m, hm⟩
  rcases hb with ⟨n, hn⟩
  exact ⟨m + n, by rw [hm, hn]; push_cast; ring⟩

theorem isCent_sub_one {a : ℚ} (ha : IsCent a) : IsCent (1 - a) := by
  rcases ha with ⟨m, hm⟩
  exact ⟨100 - m, by rw [hm]; push_cast; ring⟩

theorem round2_eq_self {q : ℚ} (h : IsCent q) : round2 q = q := by
  rcases h with ⟨k, hk⟩
  subst hk
  unfold round2
  rw [div_mul_cancel₀ _ (by norm_num : (100:ℚ) ≠ 0), round_intCast]

theorem wSum_isCent (w : List (String × ℚ)) (h : ∀ kv ∈ w, IsCent kv.2) :
    IsCent (wSum w) := by
  induction w with
  | nil => simpa [wSum] using isCent_zero
  | cons e rest ih =>
    have h1 := h e (List.mem_cons_self e rest)
    have h2 := ih (fun kv hkv => h kv (List.mem_cons_of_mem e hkv))
    unfold wSum at h2 ⊢
    simp only [List.map_cons, List.sum_cons]
    exact isCent_add h1 h2

theorem round2_nonneg {q : ℚ} (h : 0 ≤ q) : 0 ≤ round2 q := by
  unfold round2
  apply div_nonneg _ (by norm_num)
  have : (0 : ℤ) ≤ round (q * 100) := by
    rw [round_eq]
    have : (0:ℚ) ≤ q * 100 + 1 / 2 := by linarith
    exact Int.le_floor.mpr (by exact_mod_cast this)
  exact_mod_cast this

theorem round2_mono {a b : ℚ} (h : a ≤ b) : round2 a ≤ round2 b := by
  unfold round2
  have hle : round (a * 100) ≤ round (b * 100) := by
    rw [round_eq, round_eq]
    exact Int.floor_mono (by linarith)
  have hle' : ((round (a * 100) : ℤ) : ℚ) ≤ ((round (b * 100) : ℤ) : ℚ) := by
    exact_mod_cast hle
  linarith

theorem round2_le (q : ℚ) : round2 q ≤ q + 1 / 200 := by
  unfold round2
  rw [div_le_iff₀ (by norm_num : (0:ℚ) < 100)]
  have : (round (q * 100) : ℚ) ≤ q * 100 + 1 / 2 := by
    rw [round_eq]
    exact_mod_cast Int.floor_le (q * 100 + 1 / 2)
  linarith

theorem round2_ge (q : ℚ) : q - 1 / 200 ≤ round2 q := by
  unfold round2
  rw [le_div_iff₀ (by norm_num : (0:ℚ) < 100)]
  have : q * 100 - 1 / 2 ≤ (round (q * 100) : ℚ) := by
    rw [round_eq]
    have := Int.lt_floor_add_one (q * 100 + 1 / 2)
    have h2 : q * 100 + 1 / 2 - 1 < (⌊q * 100 + 1 / 2⌋ : ℚ) := by linarith
    linarith
  linarith

/-!
## Lemmas about `_adjust_for_rounding` and the weight branches
-/

theorem firstMaxBy_mem (val : String → ℚ) :
    ∀ (ks : List String) (k0 : String), firstMaxBy val k0 ks ∈ k0 :: ks := by
  intro ks
  induction ks with
  | nil => intro k0; simp [firstMaxBy]
  | cons x xs ih =>
    intro k0
    rw [firstMaxBy]
    by_cases h : val k0 < val x
    · rw [if_pos h]
      exact List.mem_cons_of_mem k0 (ih x)
    · rw [if_neg h]
      have := ih k0
      rcases List.mem_cons.mp this with h1 | h1
      · rw [h1]; exact List.mem_cons_self k0 (x :: xs)
      · exact List.mem_cons.mpr (Or.inr (List.mem_cons_of_mem x h1))

theorem firstMaxBy_max (val : String → ℚ) :
    ∀ (ks : List String) (k0 : String), ∀ k ∈ k0 :: ks,
      val k ≤ val (firstMaxBy val k0 ks) := by
  intro ks
  induction ks with
  | nil =>
    intro k0 k hk
    rcases List.mem_cons.mp hk with h | h
    · rw [h, firstMaxBy]
    · simp at h
  | cons x xs ih =>
    intro k0 k hk
    rw [firstMaxBy]
    by_cases h : val k0 < val x
    · rw [if_pos h]
      rcases List.mem_cons.mp hk with h1 | h1
      · calc val k = val k0 := by rw [h1]
          _ ≤ val x := le_of_lt h
          _ ≤ val (firstMaxBy val x xs) := ih x x (List.mem_cons_self x xs)
      · exact ih x k h1
    · rw [if_neg h]
      rcases List.mem_cons.mp hk with h1 | h1
      · rw [h1]; exact ih k0 k0 (List.mem_cons_self k0 xs)
      · rcases List.mem_cons.mp h1 with h2 | h2
        · calc val k = val x := by rw [h2]
            _ ≤ val k0 := le_of_not_lt h
            _ ≤ val (firstMaxBy val k0 xs) := ih k0 k0 (List.mem_cons_self k0 xs)
        · exact ih k0 k (List.mem_cons_of_mem k0 h2)

theorem mem_vpfList (w : List (String × ℚ)) (valid : List String)
    (k : String) :
    k ∈ vpfList w valid ↔
      k ∈ w.map (·.1) ∧ k ∈ valid ∧ 0 < wGetD w k := by
  unfold vpfList
  rw [List.mem_filter]
  constructor
  · intro ⟨h1, h2⟩
    simp only [decide_eq_true_eq, Bool.and_eq_true] at h2
    exact ⟨h1, by simpa using h2⟩
  · intro ⟨h1, h2, h3⟩
    exact ⟨h1, by simp [h2, h3]⟩

theorem aLookup_of_mem_keys {α : Type} (d : List (String × α)) (k : String)
    (h : k ∈ d.map (·.1)) : ∃ v, aLookup d k = some v := by
  have := (aLookup_isSome_iff d k).mpr h
  rcases hf : d.find? (fun e => e.1 = k) with _ | e
  · rw [hf] at this; simp at this
  · exact ⟨e.2, by unfold aLookup; rw [hf]; rfl⟩

theorem wGetD_eq_of_aLookup {w : List (String × ℚ)} {k : String} {v : ℚ}
    (h : aLookup w k = some v) : wGetD w k = v := by
  unfold wGetD wLookup
  rw [h]
  rfl

/-- After `_adjust_for_rounding`, the key list is unchanged. -/
theorem adjustForRounding_keys (w : List (String × ℚ))
    (valid : List String) :
    (adjustForRounding w valid).map (·.1) = w.map (·.1) := by
  unfold adjustForRounding
  split
  · rfl
  · split
    · rfl
    · rcases hv : vpfList w valid with _ | ⟨k0, ks⟩
      · rfl
      · have hmem : firstMaxBy (wGetD w) k0 ks ∈ vpfList w valid := by
          rw [hv]; exact firstMaxBy_mem (wGetD w) ks k0
        have hkeys : firstMaxBy (wGetD w) k0 ks ∈ w.map (·.1) :=
          ((mem_vpfList w valid _).mp hmem).1
        exact aInsert_keys_of_mem w _ _ hkeys

/-- After `_adjust_for_rounding` the values sum to exactly 1, provided the
keys are distinct, every value is a nonnegative multiple of 1/100, and
some valid field carries positive weight. -/
theorem wSum_adjustForRounding (w : List (String × ℚ)) (valid : List String)
    (hnd : (w.map (·.1)).Nodup)
    (hcent : ∀ kv ∈ w, IsCent kv.2)
    (hnn : ∀ kv ∈ w, 0 ≤ kv.2)
    (hex : ∃ k, k ∈ vpfList w valid) :
    wSum (adjustForRounding w valid) = 1 := by
  rcases hex with ⟨kp, hkp⟩
  rcases (mem_vpfList w valid kp).mp hkp with ⟨hkeys, hkvalid, hkpos⟩
  have hScent : IsCent (wSum w) := wSum_isCent w hcent
  have hwne : ¬ w.isEmpty := by
    intro he
    rw [List.isEmpty_iff.mp he] at hkeys
    simp at hkeys
  have hvne : ¬ valid.isEmpty := by
    intro he
    rw [List.isEmpty_iff.mp he] at hkvalid
    simp at hkvalid
  have hSpos : 0 < wSum w := by
    rcases aLookup_of_mem_keys w kp hkeys with ⟨v, hv⟩
    have hvp : 0 < v := by rw [wGetD_eq_of_aLookup hv] at hkpos; exact hkpos
    have := aLookup_value_le_wSum w kp v hv hnn
    linarith
  unfold adjustForRounding
  rw [if_neg (by simp [hwne, hvne])]
  by_cases hS1 : round2 (wSum w) = 1
  · rw [if_pos (Or.inr hS1)]
    rw [round2_eq_self hScent] at hS1
    exact hS1
  · rw [if_neg (by
      push_neg
      exact ⟨by linarith, hS1⟩)]
    rcases hv : vpfList w valid with _ | ⟨k0, ks⟩
    · rw [hv] at hkp; simp at hkp
    · have hmem : firstMaxBy (wGetD w) k0 ks ∈ vpfList w valid := by
        rw [hv]; exact firstMaxBy_mem (wGetD w) ks k0
      rcases (mem_vpfList w valid _).mp hmem with ⟨hmk, _, _⟩
      rcases aLookup_of_mem_keys w _ hmk with ⟨old, hold⟩
      have holdc : IsCent old := by
        have := aLookup_mem w _ old hold
        exact hcent _ this
      have hd : round2 (1 - wSum w) = 1 - wSum w :=
        round2_eq_self (isCent_sub_one hScent)
      have hn : round2 (wGetD w (firstMaxBy (wGetD w) k0 ks) +
          round2 (1 - wSum w)) = old + (1 - wSum w) := by
        rw [hd, wGetD_eq_of_aLookup hold]
        exact round2_eq_self (isCent_add holdc (isCent_sub_one hScent))
      show wSum (wSet w (firstMaxBy (wGetD w) k0 ks)
        (round2 (wGetD w (firstMaxBy (wGetD w) k0 ks) +
          round2 (1 - wSum w)))) = 1
      rw [hn]
      unfold wSet
      rw [wSum_aInsert_mem w _ _ old hnd hold]
      ring

/-- `_adjust_for_rounding` preserves nonnegativity when the sum does not
exceed 1 + 9/200 and some valid field holds weight at least 11/100. -/
theorem adjustForRounding_nonneg (w : List (String × ℚ))
    (valid : List String)
    (hnn : ∀ kv ∈ w, 0 ≤ kv.2)
    (hbound : wSum w ≤ 1 + 9 / 200)
    (hmax : ∃ k ∈ vpfList w valid, 11 / 100 ≤ wGetD w k) :
    ∀ kv ∈ adjustForRounding w valid, 0 ≤ kv.2 := by
  unfold adjustForRounding
  split
  · exact hnn
  · split
    · exact hnn
    · rcases hv : vpfList w valid with _ | ⟨k0, ks⟩
      · exact hnn
      · intro kv hkv
        rcases mem_aInsert w _ _ kv hkv with h | h
        · rcases hmax with ⟨kx, hkx, hkxval⟩
          rw [hv] at hkx
          have hmkmax : wGetD w kx ≤
              wGetD w (firstMaxBy (wGetD w) k0 ks) :=
            firstMaxBy_max (wGetD w) ks k0 kx hkx
          have h1 : 11 / 100 ≤ wGetD w (firstMaxBy (wGetD w) k0 ks) := by
            linarith
          have h2 : 1 - wSum w - 1 / 200 ≤ round2 (1 - wSum w) :=
            round2_ge (1 - wSum w)
          have h3 : (0:ℚ) ≤ wGetD w (firstMaxBy (wGetD w) k0 ks) +
              round2 (1 - wSum w) := by linarith
          rw [h]
          exact round2_nonneg h3
        · exact hnn kv h

theorem foldl_aInsert_append {α : Type} :
    ∀ (l acc : List (String × α)), ((acc ++ l).map (·.1)).Nodup →
      l.foldl (fun acc e => aInsert acc e.1 e.2) acc = acc ++ l := by
  intro l
  induction l with
  | nil => intro acc _; simp
  | cons e es ih =>
    intro acc hnd
    have hnotin : e.1 ∉ acc.map (·.1) := by
      intro hmem
      rw [List.map_append] at hnd
      rcases List.mem_map.mp hmem with ⟨x, hx, hxe⟩
      have h1 : e.1 ∈ (e :: es).map (·.1) := by simp
      have := (List.nodup_append.mp hnd).2.2
      exact this (hxe ▸ List.mem_map_of_mem _ hx) h1
    have hstep : aInsert acc e.1 e.2 = acc ++ [e] := by
      rw [wSet_of_not_mem acc e.1 e.2 hnotin]
    have hnd' : (((acc ++ [e]) ++ es).map (·.1)).Nodup := by
      rw [List.append_assoc]
      simpa using hnd
    calc (e :: es).foldl (fun acc e => aInsert acc e.1 e.2) acc
        = es.foldl (fun acc e => aInsert acc e.1 e.2) (aInsert acc e.1 e.2) := by
          simp [List.foldl_cons]
      _ = es.foldl (fun acc e => aInsert acc e.1 e.2) (acc ++ [e]) := by rw [hstep]
      _ = (acc ++ [e]) ++ es := ih (acc ++ [e]) hnd'
      _ = acc ++ e :: es := by simp

theorem wSum_map_const (conds : List String) (w : ℚ) :
    wSum (conds.map (fun c => (c, w))) = conds.length * w := by
  induction conds with
  | nil => simp [wSum]
  | cons c cs ih =>
    unfold wSum at ih ⊢
    simp only [List.map_cons, List.sum_cons, List.length_cons]
    rw [ih]
    push_cast
    ring

theorem wDictOf_of_nodup (l : List (String × ℚ))
    (h : (l.map (·.1)).Nodup) : wDictOf l = l := by
  show l.foldl (fun acc e => aInsert acc e.1 e.2) [] = l
  have := foldl_aInsert_append l [] (by simpa using h)
  simpa using this

theorem aLookup_map_const {β : Type} (conds : List String) (f : String → β)
    (c : String) (hc : c ∈ conds) :
    aLookup (conds.map (fun k => (k, f k))) c = some (f c) := by
  induction conds with
  | nil => simp at hc
  | cons k ks ih =>
    by_cases hk : k = c
    · subst hk
      unfold aLookup
      simp [List.find?_cons_of_pos]
    · have hc' : c ∈ ks := by
        rcases List.mem_cons.mp hc with h | h
        · exact absurd h.symm hk
        · exact h
      unfold aLookup at ih ⊢
      rw [List.map_cons, List.find?_cons_of_neg _ (by simpa using hk)]
      exact ih hc'

theorem nodup_subset_length {l l' : List String} (hnd : l.Nodup)
    (hsub : ∀ x ∈ l, x ∈ l') : l.length ≤ l'.length := by
  classical
  calc l.length = l.toFinset.card := (List.toFinset_card_of_nodup hnd).symm
    _ ≤ l'.toFinset.card := Finset.card_le_card (fun x hx => by
        rw [List.mem_toFinset] at hx ⊢
        exact hsub x hx)
    _ ≤ l'.length := l'.toFinset_card_le

theorem round2_ninth : round2 (1/9 : ℚ) = 11/100 := by
  unfold round2
  norm_num [round_eq]

theorem round2_inv_ge (n : ℕ) (h1 : 1 ≤ n) (h9 : n ≤ 9) :
    11/100 ≤ round2 (1 / (n : ℚ)) := by
  have : (1:ℚ)/9 ≤ 1/(n:ℚ) := by
    apply div_le_div_of_nonneg_left (by norm_num) (by positivity)
    exact_mod_cast h9
  calc (11:ℚ)/100 = round2 (1/9) := round2_ninth.symm
    _ ≤ round2 (1/(n:ℚ)) := round2_mono this

/-- `_get_equal_weights` on distinct conditions: the keys are exactly the
conditions, values are nonnegative, and the sum is exactly 1. -/
theorem equalWeights_props (conds : List String) (hnd : conds.Nodup)
    (hne : conds ≠ []) (h9 : conds.length ≤ 9) :
    (equalWeights conds).map (·.1) = conds ∧
      (∀ kv ∈ equalWeights conds, 0 ≤ kv.2) ∧
      wSum (equalWeights conds) = 1 := by
  unfold equalWeights
  rw [if_neg (by simpa using hne)]
  have hlenpos : 1 ≤ conds.length := by
    rcases conds with _ | ⟨c, cs⟩
    · exact absurd rfl hne
    · simp
  have hw11 : 11/100 ≤ round2 (1 / (conds.length : ℚ)) :=
    round2_inv_ge conds.length hlenpos h9
  have hwpos : 0 < round2 (1 / (conds.length : ℚ)) := by linarith
  have hkeys0 : ((conds.map (fun c => (c, round2 (1 / (conds.length : ℚ))))).map
      (·.1)) = conds := by
    rw [List.map_map]
    simp [Function.comp_def]
  have hnd0 : ((conds.map (fun c => (c, round2 (1 / (conds.length : ℚ))))).map
      (·.1)).Nodup := by rw [hkeys0]; exact hnd
  rw [wDictOf_of_nodup _ hnd0]
  set base := conds.map (fun c => (c, round2 (1 / (conds.length : ℚ)))) with hbase
  have hmem_base : ∀ kv ∈ base, kv.2 = round2 (1 / (conds.length : ℚ)) := by
    intro kv hkv
    rcases List.mem_map.mp hkv with ⟨c, _, hc⟩
    rw [← hc]
  have hcent : ∀ kv ∈ base, IsCent kv.2 := by
    intro kv hkv
    rw [hmem_base kv hkv]
    exact round2_isCent _
  have hnn : ∀ kv ∈ base, 0 ≤ kv.2 := by
    intro kv hkv
    rw [hmem_base kv hkv]
    linarith
  have hsum_base : wSum base = conds.length * round2 (1 / (conds.length : ℚ)) := by
    rw [hbase]
    exact wSum_map_const conds _
  rcases conds with _ | ⟨c0, cs⟩
  · exact absurd rfl hne
  · have hc0 : aLookup base c0 = some (round2 (1 / ((c0 :: cs).length : ℚ))) := by
      rw [hbase]
      exact aLookup_map_const (c0 :: cs) _ c0 (List.mem_cons_self c0 cs)
    have hget : wGetD base c0 = round2 (1 / ((c0 :: cs).length : ℚ)) :=
      wGetD_eq_of_aLookup hc0
    have hvpf : c0 ∈ vpfList base (c0 :: cs) := by
      rw [mem_vpfList]
      refine ⟨?_, List.mem_cons_self c0 cs, ?_⟩
      · rw [hkeys0]; exact List.mem_cons_self c0 cs
      · rw [hget]; exact hwpos
    have hbound : wSum base ≤ 1 + 9/200 := by
      rw [hsum_base]
      have hle : round2 (1 / ((c0 :: cs).length : ℚ)) ≤
          1 / ((c0 :: cs).length : ℚ) + 1/200 := round2_le _
      have hpos : (0:ℚ) < ((c0 :: cs).length : ℚ) := by
        exact_mod_cast hlenpos
      have : ((c0 :: cs).length : ℚ) * round2 (1 / ((c0 :: cs).length : ℚ)) ≤
          ((c0 :: cs).length : ℚ) * (1 / ((c0 :: cs).length : ℚ) + 1/200) := by
        apply mul_le_mul_of_nonneg_left hle (by positivity)
      have h2 : ((c0 :: cs).length : ℚ) * (1 / ((c0 :: cs).length : ℚ) + 1/200) =
          1 + ((c0 :: cs).length : ℚ)/200 := by
        field_simp
        ring
      have h3 : ((c0 :: cs).length : ℚ) ≤ 9 := by exact_mod_cast h9
      calc ((c0 :: cs).length : ℚ) * round2 (1 / ((c0 :: cs).length : ℚ))
          ≤ 1 + ((c0 :: cs).length : ℚ)/200 := by rw [← h2]; exact this
        _ ≤ 1 + 9/200 := by linarith
    refine ⟨?_, ?_, ?_⟩
    · rw [adjustForRounding_keys, hkeys0]
    · exact adjustForRounding_nonneg base (c0 :: cs) hnn hbound
        ⟨c0, hvpf, by rw [hget]; exact hw11⟩
    · exact wSum_adjustForRounding base (c0 :: cs)
        (by rw [hkeys0]; exact hnd) hcent hnn ⟨c0, hvpf⟩

/-- Functional form of the raw-weight loop: the (key, weight) pairs of the
valid conditions that carry a positive cell weight. -/
def rawList (row : WRow) (valid : List String) : List (String × ℚ) :=
  valid.filterMap (fun k => (cellWeight row k).map (fun wv => (k, wv)))

theorem cellWeight_pos {row : WRow} {k : String} {wv : ℚ}
    (h : cellWeight row k = some wv) : 0 < wv := by
  unfold cellWeight at h
  rcases hf1 : wFieldMap.find? (fun p => p.1 = k) with _ | p <;> rw [hf1] at h
  · simp at h
  · simp only [] at h
    rcases hf2 : row.cells.find? (fun q' => q'.1 = p.2) with _ | cell <;>
      rw [hf2] at h
    · simp at h
    · simp only [] at h
      rcases hf3 : cell.2 with _ | w0 <;> rw [hf3] at h
      · simp at h
      · simp only [] at h
        by_cases hp : 0 < w0
        · rw [if_pos hp] at h
          cases h
          exact hp
        · rw [if_neg hp] at h
          simp at h

theorem rawList_keys (row : WRow) (valid : List String) :
    (rawList row valid).map (·.1) =
      valid.filter (fun k => (cellWeight row k).isSome) := by
  induction valid with
  | nil => rfl
  | cons k ks ih =>
    unfold rawList at ih ⊢
    rw [List.filterMap_cons, List.filter_cons]
    rcases hc : cellWeight row k with _ | wv
    · simpa using ih
    · simpa using ih

theorem rawLoop_eq_aux (row : WRow) :
    ∀ (valid : List String) (acc : List (String × ℚ) × ℚ),
      valid.Nodup →
      (∀ k ∈ valid, k ∉ acc.1.map (·.1)) →
      valid.foldl (fun acc k =>
        match cellWeight row k with
        | some wv => (wSet acc.1 k wv, acc.2 + wv)
        | none => acc) acc =
      (acc.1 ++ rawList row valid, acc.2 + wSum (rawList row valid)) := by
  intro valid
  induction valid with
  | nil =>
    intro acc _ _
    simp [rawList, wSum]
  | cons k ks ih =>
    intro acc hnd hdisj
    have hndk : ks.Nodup := (List.nodup_cons.mp hnd).2
    have hknotks : k ∉ ks := (List.nodup_cons.mp hnd).1
    rw [List.foldl_cons]
    rcases hc : cellWeight row k with _ | wv
    · simp only [hc]
      have := ih acc hndk (fun k' hk' => hdisj k' (List.mem_cons_of_mem k hk'))
      rw [this]
      unfold rawList
      rw [List.filterMap_cons, hc]
      rfl
    · have hknot : k ∉ acc.1.map (·.1) := hdisj k (List.mem_cons_self k ks)
      have hset : wSet acc.1 k wv = acc.1 ++ [(k, wv)] := by
        show aInsert acc.1 k wv = _
        exact wSet_of_not_mem acc.1 k wv hknot
      simp only [hc, hset]
      have hdisj' : ∀ k' ∈ ks, k' ∉ (acc.1 ++ [(k, wv)]).map (·.1) := by
        intro k' hk'
        rw [List.map_append]
        intro hmem
        rcases List.mem_append.mp hmem with h1 | h1
        · exact hdisj k' (List.mem_cons_of_mem k hk') h1
        · simp only [List.map_cons, List.map_nil, List.mem_singleton] at h1
          exact hknotks (h1 ▸ hk')
      have := ih (acc.1 ++ [(k, wv)], acc.2 + wv) hndk hdisj'
      rw [this]
      unfold rawList
      rw [List.filterMap_cons, hc]
      refine Prod.ext ?_ ?_
      · show (acc.1 ++ [(k, wv)]) ++ rawList row ks =
          acc.1 ++ (k, wv) :: rawList row ks
        simp
      · show acc.2 + wv + wSum (rawList row ks) =
          acc.2 + wSum ((k, wv) :: rawList row ks)
        unfold wSum
        simp only [List.map_cons, List.sum_cons]
        ring

theorem rawLoop_eq (row : WRow) (valid : List String) (hnd : valid.Nodup) :
    rawLoop row valid = (rawList row valid, wSum (rawList row valid)) := by
  unfold rawLoop
  have := rawLoop_eq_aux row valid ([], 0) hnd (by intro k _; simp)
  rw [this]
  simp

/-- The shape of the zero-fill loop in `get_weights`: it appends fresh
zero entries for the applicable conditions not yet present. -/
theorem withZeros_spec (es : List String) :
    ∀ (conds : List String) (acc : List (String × ℚ)),
      ((acc.map (·.1)).Nodup) →
      ∃ zs : List (String × ℚ),
        conds.foldl (fun acc k =>
          if k ∈ es ∧ (wLookup acc k).isNone then acc ++ [(k, 0)]
          else acc) acc = acc ++ zs ∧
        (∀ kv ∈ zs, kv.2 = 0) ∧
        (((acc ++ zs).map (·.1)).Nodup) ∧
        (∀ k ∈ conds, k ∈ es → k ∈ ((acc ++ zs).map (·.1))) := by
  intro conds
  induction conds with
  | nil =>
    intro acc hnd
    exact ⟨[], by simp, by simp, by simpa using hnd, by simp⟩
  | cons k ks ih =>
    intro acc hnd
    rw [List.foldl_cons]
    by_cases hcond : k ∈ es ∧ (wLookup acc k).isNone
    · rw [if_pos hcond]
      have hknot : k ∉ acc.map (·.1) := by
        intro hmem
        have hs := (aLookup_isSome_iff acc k).mpr hmem
        rcases hf : acc.find? (fun e => e.1 = k) with _ | e
        · rw [hf] at hs; simp at hs
        · have hws : (wLookup acc k).isSome := by
            unfold wLookup aLookup
            rw [hf]
            rfl
          rw [Option.isNone_iff_eq_none.mp hcond.2] at hws
          simp at hws
      have hnd' : (((acc ++ [(k, (0:ℚ))]).map (·.1))).Nodup := by
        rw [List.map_append]
        refine List.Nodup.append hnd (by simp) ?_
        intro a ha hb
        simp only [List.map_cons, List.map_nil, List.mem_singleton] at hb
        exact hknot (hb ▸ ha)
      rcases ih (acc ++ [(k, (0:ℚ))]) hnd' with ⟨zs', hfold, hz0, hndz, hmem⟩
      refine ⟨(k, (0:ℚ)) :: zs', ?_, ?_, ?_, ?_⟩
      · rw [hfold]; simp
      · intro kv hkv
        rcases List.mem_cons.mp hkv with h | h
        · rw [h]
        · exact hz0 kv h
      · have : acc ++ (k, (0:ℚ)) :: zs' = (acc ++ [(k, (0:ℚ))]) ++ zs' := by
          simp
        rw [this]
        exact hndz
      · intro k' hk' hk'es
        have : acc ++ (k, (0:ℚ)) :: zs' = (acc ++ [(k, (0:ℚ))]) ++ zs' := by
          simp
        rw [this]
        rcases List.mem_cons.mp hk' with h | h
        · subst h
          rw [List.map_append]
          apply List.mem_append.mpr
          left
          rw [List.map_append]
          apply List.mem_append.mpr
          right
          simp
        · exact hmem k' h hk'es
    · rw [if_neg hcond]
      rcases ih acc hnd with ⟨zs', hfold, hz0, hndz, hmem⟩
      refine ⟨zs', hfold, hz0, hndz, ?_⟩
      intro k' hk' hk'es
      rcases List.mem_cons.mp hk' with h | h
      · subst h
        have hsome : ¬ (wLookup acc k').isNone := by
          intro hn
          exact hcond ⟨hk'es, hn⟩
        have : k' ∈ acc.map (·.1) := by
          apply (aLookup_isSome_iff acc k').mp
          rcases hf : acc.find? (fun e => e.1 = k') with _ | e
          · exfalso
            apply hsome
            show (wLookup acc k').isNone
            unfold wLookup aLookup
            rw [hf]
            rfl
          · rw [hf]; rfl
        rw [List.map_append]
        exact List.mem_append.mpr (Or.inl this)
      · exact hmem k' h hk'es

theorem list_sum_div (l : List ℚ) (t : ℚ) :
    (l.map (fun v => v / t)).sum = l.sum / t := by
  induction l with
  | nil => simp
  | cons v vs ih =>
    simp only [List.map_cons, List.sum_cons, ih]
    ring

theorem list_map_round2_sum_le (l : List ℚ) :
    (l.map round2).sum ≤ l.sum + l.length / 200 := by
  induction l with
  | nil => simp
  | cons v vs ih =>
    simp only [List.map_cons, List.sum_cons, List.length_cons]
    have h1 := round2_le v
    push_cast
    push_cast at ih
    linarith

theorem exists_max_snd (l : List (String × ℚ)) (h : l ≠ []) :
    ∃ kv ∈ l, ∀ kv' ∈ l, kv'.2 ≤ kv.2 := by
  induction l with
  | nil => exact absurd rfl h
  | cons e rest ih =>
    rcases rest with _ | ⟨e2, rest2⟩
    · exact ⟨e, List.mem_cons_self e [], by
        intro kv' hkv'
        rcases List.mem_cons.mp hkv' with h1 | h1
        · rw [h1]
        · simp at h1⟩
    · rcases ih (by simp) with ⟨kvm, hkvm, hmax⟩
      by_cases he : kvm.2 ≤ e.2
      · refine ⟨e, List.mem_cons_self e _, ?_⟩
        intro kv' hkv'
        rcases List.mem_cons.mp hkv' with h1 | h1
        · rw [h1]
        · exact le_trans (hmax kv' h1) he
      · refine ⟨kvm, List.mem_cons_of_mem e hkvm, ?_⟩
        intro kv' hkv'
        rcases List.mem_cons.mp hkv' with h1 | h1
        · rw [h1]; exact le_of_not_le he
        · exact hmax kv' h1

theorem wSum_le_length_mul (l : List (String × ℚ)) (m : ℚ)
    (h : ∀ kv ∈ l, kv.2 ≤ m) : wSum l ≤ l.length * m := by
  induction l with
  | nil => simp [wSum]
  | cons e rest ih =>
    have h1 := h e (List.mem_cons_self e rest)
    have h2 := ih (fun kv hkv => h kv (List.mem_cons_of_mem e hkv))
    unfold wSum at h2 ⊢
    simp only [List.map_cons, List.sum_cons, List.length_cons]
    push_cast
    linarith

theorem aLookup_of_mem_nodup {α : Type} (l : List (String × α))
    (k : String) (v : α) (hnd : (l.map (·.1)).Nodup) (hm : (k, v) ∈ l) :
    aLookup l k = some v := by
  induction l with
  | nil => simp at hm
  | cons e rest ih =>
    rcases List.mem_cons.mp hm with h1 | h1
    · unfold aLookup
      rw [List.find?_cons_of_pos _ (by rw [← h1]; simp)]
      rw [← h1]
      rfl
    · have hne : ¬ e.1 = k := by
        intro hek
        simp only [List.map_cons, List.nodup_cons] at hnd
        exact hnd.1 (hek ▸ List.mem_map_of_mem _ h1 : e.1 ∈ _)
      unfold aLookup at ih ⊢
      rw [List.find?_cons_of_neg _ (by simpa using hne)]
      exact ih (by
        simp only [List.map_cons, List.nodup_cons] at hnd
        exact hnd.2) h1

theorem wSum_zero_of_values (zs : List (String × ℚ))
    (h : ∀ kv ∈ zs, kv.2 = 0) : wSum zs = 0 := by
  induction zs with
  | nil => simp [wSum]
  | cons e rest ih =>
    unfold wSum at ih ⊢
    simp only [List.map_cons, List.sum_cons]
    rw [h e (List.mem_cons_self e rest),
      ih (fun kv hkv => h kv (List.mem_cons_of_mem e hkv))]
    ring

theorem mem_rawList {row : WRow} {valid : List String}
    {kv : String × ℚ} (h : kv ∈ rawList row valid) :
    kv.1 ∈ valid ∧ cellWeight row kv.1 = some kv.2 := by
  unfold rawList at h
  rcases List.mem_filterMap.mp h with ⟨k, hk, hck⟩
  rcases hc : cellWeight row k with _ | wv
  · rw [hc] at hck; simp at hck
  · rw [hc] at hck
    have hck2 : (k, wv) = kv := by
      have : some (k, wv) = some kv := hck
      exact Option.some.inj this
    rw [← hck2]
    exact ⟨hk, hc⟩

/-- The weight dict built by the matched-row branch of `get_weights`:
distinct keys, nonnegative values summing to exactly 1, and every
applicable provided condition present as a key. -/
theorem rowBranch_props (row : WRow) (conds valid es : List String)
    (hndv : valid.Nodup) (h9 : valid.length ≤ 9)
    (hT : (rawLoop row valid).2 ≠ 0) :
    ((adjustForRounding (withZerosOf es conds (normalizedOf row valid))
        valid).map (·.1)).Nodup ∧
    (∀ kv ∈ adjustForRounding (withZerosOf es conds (normalizedOf row valid))
        valid, 0 ≤ kv.2) ∧
    wSum (adjustForRounding (withZerosOf es conds (normalizedOf row valid))
        valid) = 1 ∧
    (∀ c ∈ conds, c ∈ es →
      c ∈ (adjustForRounding (withZerosOf es conds (normalizedOf row valid))
        valid).map (·.1)) := by
  have hre := rawLoop_eq row valid hndv
  set R := rawList row valid with hR
  have hTsum : (rawLoop row valid).2 = wSum R := by rw [hre]
  have hTne : wSum R ≠ 0 := by rw [← hTsum]; exact hT
  have hRpos : ∀ kv ∈ R, 0 < kv.2 := by
    intro kv hkv
    exact cellWeight_pos (mem_rawList hkv).2
  have hTnn : 0 ≤ wSum R := by
    unfold wSum
    apply List.sum_nonneg
    intro x hx
    rcases List.mem_map.mp hx with ⟨kv, hkv, hkvx⟩
    exact hkvx ▸ le_of_lt (hRpos kv hkv)
  have hTpos : 0 < wSum R := lt_of_le_of_ne hTnn (Ne.symm hTne)
  have hRne : R ≠ [] := by
    intro he
    rw [he] at hTne
    simp [wSum] at hTne
  have hRkeys : R.map (·.1) = valid.filter (fun k => (cellWeight row k).isSome) :=
    rawList_keys row valid
  have hRnd : (R.map (·.1)).Nodup := by
    rw [hRkeys]
    exact hndv.filter _
  have hRsub : ∀ k ∈ R.map (·.1), k ∈ valid := by
    intro k hk
    rw [hRkeys] at hk
    exact (List.mem_filter.mp hk).1
  have hRlen : R.length ≤ 9 := by
    calc R.length = (R.map (·.1)).length := (List.length_map R _).symm
      _ ≤ valid.length := nodup_subset_length hRnd hRsub
      _ ≤ 9 := h9
  -- the normalized dict
  have hNdef : normalizedOf row valid =
      R.map (fun kv => (kv.1, round2 (kv.2 / wSum R))) := by
    unfold normalizedOf
    rw [hre]
  set N := R.map (fun kv => (kv.1, round2 (kv.2 / wSum R))) with hN
  have hNkeys : N.map (·.1) = R.map (·.1) := by
    rw [hN, List.map_map]
    rfl
  have hNnd : (N.map (·.1)).Nodup := by rw [hNkeys]; exact hRnd
  have hNnn : ∀ kv ∈ N, 0 ≤ kv.2 := by
    intro kv hkv
    rcases List.mem_map.mp hkv with ⟨kv0, hkv0, hkv0e⟩
    rw [← hkv0e]
    exact round2_nonneg (le_of_lt (div_pos (hRpos kv0 hkv0) hTpos))
  have hNcent : ∀ kv ∈ N, IsCent kv.2 := by
    intro kv hkv
    rcases List.mem_map.mp hkv with ⟨kv0, _, hkv0e⟩
    rw [← hkv0e]
    exact round2_isCent _
  have hNsum : wSum N ≤ 1 + 9/200 := by
    have hmapped : N.map (·.2) =
        (R.map (·.2)).map (fun v => round2 (v / wSum R)) := by
      rw [hN, List.map_map, List.map_map]
      rfl
    have h1 : wSum N ≤ ((R.map (·.2)).map (fun v => v / wSum R)).sum +
        ((R.map (·.2)).length : ℚ) / 200 := by
      unfold wSum
      rw [hmapped]
      have := list_map_round2_sum_le ((R.map (·.2)).map (fun v => v / wSum R))
      rw [List.map_map] at this
      simpa using this
    have h2 : ((R.map (·.2)).map (fun v => v / wSum R)).sum = 1 := by
      rw [list_sum_div]
      unfold wSum
      exact div_self hTne
    rw [h2] at h1
    have h3 : ((R.map (·.2)).length : ℚ) ≤ 9 := by
      rw [List.length_map]
      exact_mod_cast hRlen
    linarith
  -- the maximal raw entry
  rcases exists_max_snd R hRne with ⟨kvm, hkvm, hkvmax⟩
  have hml : 1 ≤ R.length := by
    rcases R with _ | _
    · exact absurd rfl hRne
    · simp
  have hTle : wSum R ≤ R.length * kvm.2 :=
    wSum_le_length_mul R kvm.2 (fun kv hkv => hkvmax kv hkv)
  have hfrac : 1 / (R.length : ℚ) ≤ kvm.2 / wSum R := by
    rw [div_le_div_iff₀ (by exact_mod_cast hml) hTpos]
    calc 1 * wSum R = wSum R := by ring
      _ ≤ R.length * kvm.2 := hTle
      _ = kvm.2 * R.length := by ring
  have hm11 : 11/100 ≤ round2 (kvm.2 / wSum R) :=
    le_trans (round2_inv_ge R.length hml hRlen) (round2_mono hfrac)
  have hNm : (kvm.1, round2 (kvm.2 / wSum R)) ∈ N :=
    List.mem_map_of_mem _ hkvm
  have hNlook : aLookup N kvm.1 = some (round2 (kvm.2 / wSum R)) :=
    aLookup_of_mem_nodup N kvm.1 _ hNnd hNm
  -- the zero-filled dict
  rcases withZeros_spec es conds N hNnd with ⟨zs, hfold, hz0, hndz, hmemz⟩
  have hZdef : withZerosOf es conds (normalizedOf row valid) = N ++ zs := by
    unfold withZerosOf
    rw [hNdef]
    exact hfold
  rw [hZdef]
  have hZnn : ∀ kv ∈ N ++ zs, 0 ≤ kv.2 := by
    intro kv hkv
    rcases List.mem_append.mp hkv with h | h
    · exact hNnn kv h
    · rw [hz0 kv h]
  have hZcent : ∀ kv ∈ N ++ zs, IsCent kv.2 := by
    intro kv hkv
    rcases List.mem_append.mp hkv with h | h
    · exact hNcent kv h
    · rw [hz0 kv h]; exact isCent_zero
  have hZsum : wSum (N ++ zs) ≤ 1 + 9/200 := by
    rw [wSum_append, wSum_zero_of_values zs hz0]
    linarith
  have hZlook : aLookup (N ++ zs) kvm.1 = some (round2 (kvm.2 / wSum R)) := by
    rw [aLookup_append_left N zs kvm.1 (by
      rw [hNkeys]
      exact List.mem_map_of_mem _ hkvm)]
    exact hNlook
  have hZget : wGetD (N ++ zs) kvm.1 = round2 (kvm.2 / wSum R) :=
    wGetD_eq_of_aLookup hZlook
  have hvpf : kvm.1 ∈ vpfList (N ++ zs) valid := by
    rw [mem_vpfList]
    refine ⟨?_, ?_, ?_⟩
    · rw [List.map_append]
      apply List.mem_append.mpr
      left
      rw [hNkeys]
      exact List.mem_map_of_mem _ hkvm
    · exact hRsub kvm.1 (List.mem_map_of_mem _ hkvm)
    · rw [hZget]; linarith
  refine ⟨?_, ?_, ?_, ?_⟩
  · rw [adjustForRounding_keys]
    exact hndz
  · exact adjustForRounding_nonneg (N ++ zs) valid hZnn hZsum
      ⟨kvm.1, hvpf, by rw [hZget]; exact hm11⟩
  · exact wSum_adjustForRounding (N ++ zs) valid hndz hZcent hZnn ⟨kvm.1, hvpf⟩
  · intro c hc hces
    rw [adjustForRounding_keys]
    exact hmemz c hc hces

theorem validCondsOf_nodup (e : String) (conds : List String)
    (hnd : conds.Nodup) : (validCondsOf e conds).Nodup :=
  hnd.filter _

theorem validCondsOf_len9 (e : String) (conds : List String)
    (hnd : conds.Nodup) : (validCondsOf e conds).length ≤ 9 := by
  have hsub : ∀ c ∈ validCondsOf e conds, c ∈ wFieldMap.map (·.1) := by
    intro c hc
    have := (List.mem_filter.mp hc).2
    simp only [Bool.and_eq_true, decide_eq_true_eq] at this
    exact (aLookup_isSome_iff wFieldMap c).mp this.1
  calc (validCondsOf e conds).length ≤ (wFieldMap.map (·.1)).length :=
      nodup_subset_length (validCondsOf_nodup e conds hnd) hsub
    _ = 9 := by rfl

/-- Whenever `get_weights` succeeds on a duplicate-free condition list,
the returned weight dict has distinct keys and nonnegative values that sum
to exactly 1 (hence to 1.00 within any rounding tolerance). -/
theorem getWeights_ok_props (df : List WRow) (entity : String)
    (conds : List String) (w : List (String × ℚ)) (hnd : conds.Nodup)
    (hok : getWeights df entity conds = .ok w) :
    (w.map (·.1)).Nodup ∧ (∀ kv ∈ w, 0 ≤ kv.2) ∧ wSum w = 1 := by
  unfold getWeights at hok
  split at hok
  · exact absurd hok (by simp)
  · split at hok
    · exact absurd hok (by simp)
    · split at hok
      · exact absurd hok (by simp)
      · split at hok
        · exact absurd hok (by simp)
        · split at hok
          · exact absurd hok (by simp)
          · rename_i hdf hconds hent hkey hvalid
            have hvnd := validCondsOf_nodup (pyLower (pyStrip entity)) conds hnd
            have hv9 := validCondsOf_len9 (pyLower (pyStrip entity)) conds hnd
            have hvne : validCondsOf (pyLower (pyStrip entity)) conds ≠ [] := by
              intro he
              exact hvalid (by rw [he]; rfl)
            split at hok
            · have hw : w = equalWeights (validCondsOf (pyLower (pyStrip entity)) conds) := by
                have := Except.ok.inj hok
                exact this.symm
              rcases equalWeights_props _ hvnd hvne hv9 with ⟨hk, hnn, hs⟩
              rw [hw]
              exact ⟨by rw [hk]; exact hvnd, hnn, hs⟩
            · split at hok
              · have hw : w = equalWeights (validCondsOf (pyLower (pyStrip entity)) conds) := by
                  have := Except.ok.inj hok
                  exact this.symm
                rcases equalWeights_props _ hvnd hvne hv9 with ⟨hk, hnn, hs⟩
                rw [hw]
                exact ⟨by rw [hk]; exact hvnd, hnn, hs⟩
              · rename_i row rest hrows hT
                have hw : w = adjustForRounding
                    (withZerosOf (entityConditionsOf (pyLower (pyStrip entity)))
                      conds
                      (normalizedOf row (validCondsOf (pyLower (pyStrip entity)) conds)))
                    (validCondsOf (pyLower (pyStrip entity)) conds) := by
                  have := Except.ok.inj hok
                  exact this.symm
                rcases rowBranch_props row conds
                  (validCondsOf (pyLower (pyStrip entity)) conds)
                  (entityConditionsOf (pyLower (pyStrip entity)))
                  hvnd hv9 hT with ⟨hknd, hnn, hs, _⟩
                rw [hw]
                exact ⟨hknd, hnn, hs⟩

/-- The weights actually used by `match` (either `get_weights` output or
the engine's own equal-weight fallback) always have distinct keys and
nonnegative values summing to exactly 1, for a non-empty duplicate-free
criteria list. -/
theorem getNormalizedWeights_props (df : List WRow) (record : PyDict)
    (criteria : List String) (hnd : criteria.Nodup) (hne : criteria ≠ []) :
    ((getNormalizedWeights df record criteria).map (·.1)).Nodup ∧
    (∀ kv ∈ getNormalizedWeights df record criteria, 0 ≤ kv.2) ∧
    wSum (getNormalizedWeights df record criteria) = 1 := by
  unfold getNormalizedWeights
  rcases hgw : getWeights df (determineEntityType record) criteria with e | w
  · rw [if_neg (by simpa using hne)]
    have hnpos : 0 < criteria.length := List.length_pos.mpr hne
    have hnne : (criteria.length : ℚ) ≠ 0 := by
      have : (0:ℚ) < (criteria.length : ℚ) := by exact_mod_cast hnpos
      linarith
    have hkeys : ((criteria.map (fun c => (c, 1 / (criteria.length : ℚ)))).map
        (·.1)) = criteria := by
      rw [List.map_map]
      simp [Function.comp_def]
    have hnd0 : ((criteria.map (fun c => (c, 1 / (criteria.length : ℚ)))).map
        (·.1)).Nodup := by rw [hkeys]; exact hnd
    rw [wDictOf_of_nodup _ hnd0]
    refine ⟨by rw [hkeys]; exact hnd, ?_, ?_⟩
    · intro kv hkv
      rcases List.mem_map.mp hkv with ⟨c, _, hc⟩
      rw [← hc]
      positivity
    · rw [wSum_map_const]
      field_simp
  · exact getWeights_ok_props df (determineEntityType record) criteria w hnd hgw

/-!
## Prefilter-cascade lemmas
-/

theorem filter_filter_of_imp {α : Type} (l : List α) (p q : α → Bool)
    (h : ∀ x ∈ l, p x = true → q x = true) :
    (l.filter q).filter p = l.filter p := by
  induction l with
  | nil => rfl
  | cons x xs ih =>
    have ih' := ih (fun y hy => h y (List.mem_cons_of_mem x hy))
    by_cases hq : q x = true
    · rw [List.filter_cons, if_pos hq, List.filter_cons, List.filter_cons]
      by_cases hp : p x = true
      · rw [if_pos hp, if_pos hp, ih']
      · rw [if_neg hp, if_neg hp, ih']
    · have hp : ¬ p x = true := fun hp =>
        hq (h x (List.mem_cons_self x xs) hp)
      rw [List.filter_cons, if_neg hq, List.filter_cons, if_neg hp, ih']

/-- The core cascade exchange law: if every row that the predicate `G`
accepts passes every applicable prefilter test, then filtering by `G`
after the cascade equals filtering the original rows by `G` — no `G`-row
is ever pruned. -/
theorem runCascade_filter_comm (fm : FieldMap) (cols : List String)
    (mapped : PyDict) (criteria : List String) (G : RowT → Bool) :
    ∀ (fields : List (String × ℚ)) (rows : List RowT),
      (∀ ft ∈ fields, ft.1 ∈ criteria →
        fieldUsable fm cols mapped ft.1 = true →
        ∀ r ∈ rows, G r = true →
          decide (ft.2 ≤ fieldTextSim fm mapped ft.1 r) = true) →
      (runCascade fm cols mapped criteria fields rows).filter G =
        rows.filter G := by
  intro fields
  induction fields with
  | nil => intro rows _; rfl
  | cons ft rest ih =>
    intro rows hh
    rw [runCascade]
    by_cases hskip : ¬ (ft.1 ∈ criteria) ∨ rows.isEmpty
    · rw [if_pos hskip]
      exact ih rows (fun ft' hft' => hh ft' (List.mem_cons_of_mem ft hft'))
    · rw [if_neg hskip]
      push_neg at hskip
      have hcrit : ft.1 ∈ criteria := hskip.1
      by_cases husable : fieldUsable fm cols mapped ft.1 = true
      · rw [if_neg (by simpa using husable)]
        have hkeep : ∀ r ∈ rows, G r = true →
            decide (ft.2 ≤ fieldTextSim fm mapped ft.1 r) = true :=
          hh ft (List.mem_cons_self ft rest) hcrit husable
        have hff : (rows.filter
            (fun r => decide (ft.2 ≤ fieldTextSim fm mapped ft.1 r))).filter G =
            rows.filter G :=
          filter_filter_of_imp rows G _ hkeep
        split
        · exact hff
        · rw [ih (rows.filter
            (fun r => decide (ft.2 ≤ fieldTextSim fm mapped ft.1 r)))
            (fun ft' hft' hc hu r hr => hh ft' (List.mem_cons_of_mem ft hft')
              hc hu r (List.mem_of_mem_filter hr))]
          exact hff
      · rw [if_pos (by simpa using husable)]
        exact ih rows (fun ft' hft' => hh ft' (List.mem_cons_of_mem ft hft'))

/-!
## Score-bound lemmas
-/

theorem fieldTextSim_bounds (fm : FieldMap) (mapped : PyDict) (f : String)
    (r : RowT) : 0 ≤ fieldTextSim fm mapped f r ∧
      fieldTextSim fm mapped f r ≤ 1 := by
  unfold fieldTextSim
  rcases fmGet fm f with _ | p
  · norm_num
  · exact ⟨textCellSim_nonneg _ _, textCellSim_le_one _ _⟩

theorem fieldDateSim_bounds (fm : FieldMap) (mapped : PyDict) (f : String)
    (r : RowT) : 0 ≤ fieldDateSim fm mapped f r ∧
      fieldDateSim fm mapped f r ≤ 1 := by
  unfold fieldDateSim dateCellSim
  rcases fmGet fm f with _ | p
  · norm_num
  · simp only []
    by_cases ht : ¬ pyTruthy (pyGetD mapped f)
    · rw [if_pos ht]; norm_num
    · rw [if_neg ht]
      rcases standardizeDateFormat (pyStr (pyGetD mapped f)) with _ | sq
      · simp
      · simp only []
        constructor
        · positivity
        · rw [div_le_one (by norm_num : (0:ℚ) < 100)]
          have := pctOf_le_100 (cellDateStd (rowCell r p.1)).toList sq.toList
          exact_mod_cast this

theorem critSim_bounds (fm : FieldMap) (mapped : PyDict) (f : String)
    (r : RowT) : 0 ≤ critSim fm mapped f r ∧ critSim fm mapped f r ≤ 1 := by
  unfold critSim
  split
  · exact fieldDateSim_bounds fm mapped f r
  · exact fieldTextSim_bounds fm mapped f r

theorem totalScore_eq_sum (fm : FieldMap) (cols : List String)
    (mapped : PyDict) (criteria : List String)
    (weights : List (String × ℚ)) (r : RowT) :
    totalScore fm cols mapped criteria weights r =
      (weights.map (fun cw =>
        if cw.1 ∈ criteria ∧ fieldUsable fm cols mapped cw.1 = true then
          critSim fm mapped cw.1 r * cw.2
        else 0)).sum := by
  unfold totalScore
  suffices h : ∀ (l : List (String × ℚ)) (a : ℚ),
      l.foldl (fun acc cw =>
        if cw.1 ∈ criteria ∧ fieldUsable fm cols mapped cw.1 then
          acc + critSim fm mapped cw.1 r * cw.2
        else acc) a =
      a + (l.map (fun cw =>
        if cw.1 ∈ criteria ∧ fieldUsable fm cols mapped cw.1 = true then
          critSim fm mapped cw.1 r * cw.2
        else 0)).sum by
    rw [h weights 0]
    ring
  intro l
  induction l with
  | nil => intro a; simp
  | cons cw cws ih =>
    intro a
    rw [List.foldl_cons, List.map_cons, List.sum_cons, ih]
    by_cases hp : cw.1 ∈ criteria ∧ fieldUsable fm cols mapped cw.1 = true
    · rw [if_pos hp, if_pos hp]
      ring
    · rw [if_neg hp, if_neg hp]
      ring

/-- The weighted total score of a row is at most the scored similarity of
any single weighted field plus the total weight of all other fields. -/
theorem totalScore_le (fm : FieldMap) (cols : List String) (mapped : PyDict)
    (criteria : List String) (weights : List (String × ℚ)) (r : RowT)
    (f : String) (wf : ℚ)
    (hf : aLookup weights f = some wf)
    (hnn : ∀ kv ∈ weights, 0 ≤ kv.2)
    (hsum : wSum weights = 1)
    (hfc : f ∈ criteria) (hfu : fieldUsable fm cols mapped f = true) :
    totalScore fm cols mapped criteria weights r ≤
      critSim fm mapped f r * wf + (1 - wf) := by
  have hmem : (f, wf) ∈ weights := aLookup_mem weights f wf hf
  rcases List.append_of_mem hmem with ⟨l1, l2, h12⟩
  have hperm : weights.Perm ((f, wf) :: (l1 ++ l2)) := by
    rw [h12]
    exact List.perm_middle
  have hmemrest : ∀ kv ∈ l1 ++ l2, kv ∈ weights := by
    intro kv hkv
    rw [h12]
    rcases List.mem_append.mp hkv with h | h
    · exact List.mem_append.mpr (Or.inl h)
    · exact List.mem_append.mpr (Or.inr (List.mem_cons_of_mem _ h))
  set contrib := fun cw : String × ℚ =>
    if cw.1 ∈ criteria ∧ fieldUsable fm cols mapped cw.1 = true then
      critSim fm mapped cw.1 r * cw.2
    else 0 with hcontrib
  have hts := totalScore_eq_sum fm cols mapped criteria weights r
  have hpermsum : (weights.map contrib).sum =
      (((f, wf) :: (l1 ++ l2)).map contrib).sum :=
    (hperm.map contrib).sum_eq
  have hhead : contrib (f, wf) = critSim fm mapped f r * wf := by
    rw [hcontrib]
    simp only [if_pos (And.intro hfc hfu)]
  have hrest : ((l1 ++ l2).map contrib).sum ≤ wSum (l1 ++ l2) := by
    unfold wSum
    apply List.sum_le_sum
    intro kv hkv
    have hkvw : kv ∈ weights := hmemrest kv hkv
    rw [hcontrib]
    by_cases hp : kv.1 ∈ criteria ∧ fieldUsable fm cols mapped kv.1 = true
    · simp only [if_pos hp]
      have hb := critSim_bounds fm mapped kv.1 r
      have hv := hnn kv hkvw
      nlinarith [hb.1, hb.2]
    · simp only [if_neg hp]
      exact hnn kv hkvw
  have hsum_rest : wSum (l1 ++ l2) = 1 - wf := by
    have hws : wSum weights = wf + wSum (l1 ++ l2) := by
      unfold wSum
      have := (hperm.map (·.2)).sum_eq
      rw [this]
      simp
    rw [hsum] at hws
    linarith
  calc totalScore fm cols mapped criteria weights r
      = (weights.map contrib).sum := hts
    _ = (((f, wf) :: (l1 ++ l2)).map contrib).sum := hpermsum
    _ = contrib (f, wf) + ((l1 ++ l2).map contrib).sum := by simp
    _ ≤ critSim fm mapped f r * wf + wSum (l1 ++ l2) := by
        rw [hhead]
        linarith [hrest]
    _ = critSim fm mapped f r * wf + (1 - wf) := by rw [hsum_rest]

theorem mapRecord_fold_nodup (lower : List (String × String)) (flat : PyDict) :
    ∀ (fm : FieldMap) (acc : PyDict), (acc.map (·.1)).Nodup →
      ((fm.foldl (fun acc e =>
        match aLookup lower (pyLower e.2.2) with
        | some origKey => pyInsert acc e.1 (pyGetD flat origKey)
        | none => acc) acc).map (·.1)).Nodup := by
  intro fm
  induction fm with
  | nil => intro acc h; exact h
  | cons e es ih =>
    intro acc h
    rw [List.foldl_cons]
    rcases hl : aLookup lower (pyLower e.2.2) with _ | origKey
    · simp only [hl]
      exact ih acc h
    · simp only [hl]
      exact ih _ (aInsert_keys_nodup acc e.1 _ h)

theorem mapRecord_keys_nodup (fm : FieldMap) (flat : PyDict) :
    ((mapRecord fm flat).map (·.1)).Nodup := by
  unfold mapRecord
  exact mapRecord_fold_nodup (lowerKeyMap flat) flat fm [] (by simp)

theorem availCriteria_nodup (mapped : PyDict)
    (h : (mapped.map (·.1)).Nodup) : (availCriteria mapped).Nodup := by
  unfold availCriteria
  have hsub : ((mapped.filter (fun e => ¬ pyIsNa e.2 ∧ pyTruthy e.2)).map
      (·.1)).Sublist (mapped.map (·.1)) :=
    (List.filter_sublist mapped).map (·.1)
  exact h.sublist hsub

theorem env_criteria_nodup (imap instmap : FieldMap) (df : List WRow)
    (cbs : DFrame) (source : PyDict) :
    (mkMatchEnv imap instmap df cbs source).criteria.Nodup := by
  unfold mkMatchEnv
  exact availCriteria_nodup _ (mapRecord_keys_nodup _ _)

/-- C1.  Soundness of the prefilter cascade: whenever, for each prefilter
field actually applied (present in the criteria and usable), the field
carries a positive resolved weight `w_f` and its prefilter threshold `t`
satisfies `w_f * t ≤ θ - 1 + w_f` (i.e. `t` is at most the field's final
weight-contribution threshold `(θ - (1 - w_f)) / w_f`), the rows reaching
the `Matched` stage after the cascade are exactly the rows that full,
un-prefiltered weighted scoring would have scored at or above `θ`. -/
theorem claim_C1 (imap instmap : FieldMap) (df : List WRow)
    (cbs : DFrame) (source : PyDict) (θ : ℚ)
    (H : ∀ ft ∈ prefilterFields,
      ft.1 ∈ (mkMatchEnv imap instmap df cbs source).criteria →
      fieldUsable (mkMatchEnv imap instmap df cbs source).fm cbs.cols
        (mkMatchEnv imap instmap df cbs source).mapped ft.1 = true →
      ft.1 ∉ dateCriteria ∧
      (aLookup (mkMatchEnv imap instmap df cbs source).weights ft.1).isSome ∧
      0 < wGetD (mkMatchEnv imap instmap df cbs source).weights ft.1 ∧
      wGetD (mkMatchEnv imap instmap df cbs source).weights ft.1 * ft.2 ≤
        θ - 1 + wGetD (mkMatchEnv imap instmap df cbs source).weights ft.1) :
    envMatched (mkMatchEnv imap instmap df cbs source) θ =
      envFullMatched (mkMatchEnv imap instmap df cbs source) θ := by
  set env := mkMatchEnv imap instmap df cbs source with henv
  have hcols : env.cols = cbs.cols := by rw [henv]; rfl
  have hnd : env.criteria.Nodup := env_criteria_nodup imap instmap df cbs source
  unfold envMatched envFullMatched envPre
  by_cases hce : env.criteria = []
  · apply runCascade_filter_comm
    intro ft _ hftc
    rw [hce] at hftc
    simp at hftc
  · have hweights : env.weights =
        getNormalizedWeights df source env.criteria := by rw [henv]; rfl
    rcases getNormalizedWeights_props df source env.criteria hnd hce with
      ⟨hwnd, hwnn, hwsum⟩
    rw [← hweights] at hwnd hwnn hwsum
    apply runCascade_filter_comm
    intro ft hft hftc hftu r _ hGr
    rcases H ft hft hftc (by rw [hcols] at hftu; exact hftu) with
      ⟨hdate, hsome, hpos, hthr⟩
    rcases Option.isSome_iff_exists.mp hsome with ⟨wf, hwf⟩
    have hwfget : wGetD env.weights ft.1 = wf := wGetD_eq_of_aLookup hwf
    rw [hwfget] at hpos hthr
    have hGr' : θ ≤ envTotal env r := of_decide_eq_true hGr
    have htot : envTotal env r =
        totalScore env.fm env.cols env.mapped env.criteria env.weights r := rfl
    by_contra hlt
    have hnotle : ¬ (ft.2 ≤ fieldTextSim env.fm env.mapped ft.1 r) :=
      fun hle => hlt (decide_eq_true hle)
    have hsimlt : fieldTextSim env.fm env.mapped ft.1 r < ft.2 :=
      lt_of_not_le hnotle
    have hcrit_eq : critSim env.fm env.mapped ft.1 r =
        fieldTextSim env.fm env.mapped ft.1 r := by
      unfold critSim
      rw [if_neg hdate]
    have hble := totalScore_le env.fm env.cols env.mapped env.criteria
      env.weights r ft.1 wf hwf hwnn hwsum hftc hftu
    rw [hcrit_eq] at hble
    have hmul : fieldTextSim env.fm env.mapped ft.1 r * wf < ft.2 * wf :=
      mul_lt_mul_of_pos_right hsimlt hpos
    have hcomm : ft.2 * wf = wf * ft.2 := mul_comm _ _
    have hcontra : envTotal env r < θ := by
      rw [htot]
      linarith [hble, hmul, hthr, hcomm]
    linarith [hGr', hcontra]

/-!
## Character and normalization lemmas (text-preprocessing algebra)
-/

theorem dropWhile_head_false {p : Char → Bool} :
    ∀ (l : List Char) (a : Char) (t : List Char),
      l.dropWhile p = a :: t → p a = false := by
  intro l
  induction l with
  | nil => intro a t h; simp [List.dropWhile] at h
  | cons b l ih =>
    intro a t h
    rw [List.dropWhile_cons] at h
    by_cases hb : p b = true
    · rw [if_pos hb] at h; exact ih a t h
    · rw [if_neg hb] at h
      cases h; simpa using hb

theorem dropWhile_dropWhile {p : Char → Bool} (l : List Char) :
    (l.dropWhile p).dropWhile p = l.dropWhile p := by
  rcases h : l.dropWhile p with _ | ⟨a, t⟩
  · rfl
  · rw [List.dropWhile_cons, if_neg (by rw [dropWhile_head_false l a t h]; simp)]

/-- `str.strip()` is idempotent. -/
theorem stripChars_idem (l : List Char) :
    stripChars (stripChars l) = stripChars l := by
  unfold stripChars
  set u := l.dropWhile isPyWs with hu
  set v := u.reverse.dropWhile isPyWs with hv
  have hpre : v.reverse <+: u := by
    rw [← List.reverse_reverse u]
    exact (List.reverse_prefix).mpr (List.dropWhile_suffix isPyWs)
  have hclaim1 : v.reverse.dropWhile isPyWs = v.reverse := by
    rcases hvr : v.reverse with _ | ⟨c, t⟩
    · rfl
    · obtain ⟨rest, hrest⟩ := hpre
      rw [hvr] at hrest
      have hc : isPyWs c = false := by
        apply dropWhile_head_false l c (t ++ rest)
        rw [← hu, ← hrest]
        rfl
      rw [List.dropWhile_cons, if_neg (by rw [hc]; simp)]
  rw [hclaim1, List.reverse_reverse, hv, dropWhile_dropWhile]

theorem stripChars_subset {c : Char} {l : List Char}
    (h : c ∈ stripChars l) : c ∈ l := by
  unfold stripChars at h
  rw [List.mem_reverse] at h
  have h1 := (List.dropWhile_suffix isPyWs).subset h
  rw [List.mem_reverse] at h1
  exact (List.dropWhile_suffix isPyWs).subset h1

theorem toNat_ofNat_valid (n : ℕ) (hn : n.isValidChar) :
    (Char.ofNat n).toNat = n := by
  unfold Char.ofNat
  rw [dif_pos hn]
  unfold Char.ofNatAux Char.toNat
  simp [UInt32.toNat]

theorem char_toNat_range (c : Char) (h : c.isAlphanum = true) :
    (48 ≤ c.toNat ∧ c.toNat ≤ 57) ∨ (65 ≤ c.toNat ∧ c.toNat ≤ 90) ∨
      (97 ≤ c.toNat ∧ c.toNat ≤ 122) := by
  unfold Char.isAlphanum Char.isAlpha Char.isUpper Char.isLower Char.isDigit at h
  simp only [Bool.or_eq_true, Bool.and_eq_true, decide_eq_true_eq] at h
  rcases h with (h | h) | h
  · right; left
    exact ⟨by exact_mod_cast h.1, by exact_mod_cast h.2⟩
  · right; right
    exact ⟨by exact_mod_cast h.1, by exact_mod_cast h.2⟩
  · left
    exact ⟨by exact_mod_cast h.1, by exact_mod_cast h.2⟩

theorem char_isAlphanum_of_range (c : Char)
    (h : (48 ≤ c.toNat ∧ c.toNat ≤ 57) ∨ (65 ≤ c.toNat ∧ c.toNat ≤ 90) ∨
      (97 ≤ c.toNat ∧ c.toNat ≤ 122)) :
    c.isAlphanum = true := by
  unfold Char.isAlphanum Char.isAlpha Char.isUpper Char.isLower Char.isDigit
  simp only [Bool.or_eq_true, Bool.and_eq_true, decide_eq_true_eq]
  rcases h with h | h | h
  · right
    exact ⟨by unfold Char.toNat at *; exact_mod_cast h.1,
      by unfold Char.toNat at *; exact_mod_cast h.2⟩
  · left; left
    exact ⟨by unfold Char.toNat at *; exact_mod_cast h.1,
      by unfold Char.toNat at *; exact_mod_cast h.2⟩
  · left; right
    exact ⟨by unfold Char.toNat at *; exact_mod_cast h.1,
      by unfold Char.toNat at *; exact_mod_cast h.2⟩

/-- Lower-casing an alphanumeric character gives an alphanumeric
character that lower-casing fixes. -/
theorem toLower_fix (c : Char) (h : c.isAlphanum = true) :
    c.toLower.isAlphanum = true ∧ c.toLower.toLower = c.toLower := by
  have hrange := char_toNat_range c h
  unfold Char.toLower
  by_cases hu : c.toNat ≥ 65 ∧ c.toNat ≤ 90
  · rw [if_pos hu]
    have hvalid : (c.toNat + 32).isValidChar := by
      unfold Nat.isValidChar; left; omega
    have hN := toNat_ofNat_valid _ hvalid
    constructor
    · exact char_isAlphanum_of_range _ (Or.inr (Or.inr (by rw [hN]; omega)))
    · rw [if_neg (by rw [hN]; omega)]
  · rw [if_neg hu, if_neg hu]
    exact ⟨h, rfl⟩

theorem defaultProcess_subset {c : Char} {l : List Char}
    (h : c ∈ defaultProcess l) :
    c ∈ l.map (fun c => if c.isAlphanum then c.toLower else ' ') :=
  stripChars_subset h

/-!
## Similarity-resolution lemmas
-/

/-- Every entry of a batch text-similarity series is a rounded integer
percentage at most 100, divided by 100. -/
theorem textCellSim_cent (cell : Option String) (q : String) :
    ∃ n : ℕ, n ≤ 100 ∧ textCellSim cell q = (n : ℚ) / 100 := by
  unfold textCellSim
  by_cases h1 : q = ""
  · exact ⟨0, by norm_num, by rw [if_pos h1]; norm_num⟩
  · rw [if_neg h1]
    simp only []
    by_cases h2 : preprocessText q = ""
    · exact ⟨0, by norm_num, by rw [if_pos h2]; norm_num⟩
    · rw [if_neg h2]
      exact ⟨pctOf (preprocessText (cell.getD "")).toList
        (preprocessText q).toList, pctOf_le_100 _ _, rfl⟩

/-- Every entry of a batch date-similarity series is a rounded integer
percentage at most 100, divided by 100. -/
theorem dateCellSim_cent (cell : Option String) (q : PyVal) :
    ∃ n : ℕ, n ≤ 100 ∧ dateCellSim cell q = (n : ℚ) / 100 := by
  unfold dateCellSim
  by_cases h1 : ¬ pyTruthy q
  · exact ⟨0, by norm_num, by rw [if_pos h1]; norm_num⟩
  · rw [if_neg h1]
    rcases standardizeDateFormat (pyStr q) with _ | sq
    · exact ⟨0, by norm_num, by norm_num⟩
    · exact ⟨pctOf (cellDateStd cell).toList sq.toList, pctOf_le_100 _ _, rfl⟩

/-!
## Date-standardization lemmas
-/

/-- The format loop is literally "first successful parse wins" over the
ordered layout list. -/
theorem tryFormatsLoop_eq_findSome (s : String) :
    ∀ fs : List (List Dir),
      tryFormatsLoop fs s =
        fs.findSome? (fun fmt => (tryFmt fmt s).map fmtYYYYMMDD) := by
  intro fs
  induction fs with
  | nil => rfl
  | cons f rest ih =>
    rw [tryFormatsLoop, List.findSome?_cons]
    rcases h : tryFmt f s with _ | st
    · rw [ih]; rfl
    · rfl

/-!
## Weight-resolution helpers: existence, key coverage, unknown entities
-/

theorem pyId_of_mem_entityKeys (e : String) (he : e ∈ entityKeys) :
    pyLower (pyStrip e) = e := by
  simp only [entityKeys, List.mem_cons, List.mem_singleton,
    List.not_mem_nil, or_false] at he
  rcases he with rfl | rfl | rfl <;> decide

theorem entityKeys_ne_empty (e : String) (he : e ∈ entityKeys) :
    ¬ (e = "") := by
  simp only [entityKeys, List.mem_cons, List.mem_singleton,
    List.not_mem_nil, or_false] at he
  rcases he with rfl | rfl | rfl <;> decide

/-- Every field applicable to a known entity type exists in the
weight-table field mapping. -/
theorem entityConds_in_wFieldMap (e : String) (he : e ∈ entityKeys)
    (c : String) (hc : c ∈ entityConditionsOf e) :
    (wFieldMap.find? (fun p => p.1 = c)).isSome = true := by
  simp only [entityKeys, List.mem_cons, List.mem_singleton,
    List.not_mem_nil, or_false] at he
  rcases he with rfl | rfl | rfl
  · have hc' : c ∈ (["name", "pan_no", "registration_no"] : List String) := hc
    fin_cases hc' <;> decide
  · have hc' : c ∈ (["name", "account_no"] : List String) := hc
    fin_cases hc' <;> decide
  · have hc' : c ∈ (["name", "fathers_name", "dob", "citizenship_no",
      "grandfathers_name", "spouse_name"] : List String) := hc
    fin_cases hc' <;> decide

/-- When every requested condition is applicable to the (known) entity
type, the `valid_conditions` filter keeps them all. -/
theorem validCondsOf_eq_self (entity : String) (conds : List String)
    (hent : entity ∈ entityKeys)
    (happ : ∀ c ∈ conds, c ∈ entityConditionsOf entity) :
    validCondsOf (pyLower (pyStrip entity)) conds = conds := by
  rw [pyId_of_mem_entityKeys entity hent]
  unfold validCondsOf
  apply List.filter_eq_self.mpr
  intro c hc
  simp only [decide_eq_true_eq]
  exact ⟨entityConds_in_wFieldMap entity hent c (happ c hc), happ c hc⟩

/-- `get_weights` succeeds on every known entity type with a non-empty
weight table and a non-empty applicable condition list. -/
theorem getWeights_isOk (df : List WRow) (entity : String)
    (conds : List String) (hdf : df ≠ []) (hconds : conds ≠ [])
    (hent : entity ∈ entityKeys)
    (happ : ∀ c ∈ conds, c ∈ entityConditionsOf entity) :
    ∃ w, getWeights df entity conds = .ok w := by
  have hvalid := validCondsOf_eq_self entity conds hent happ
  unfold getWeights
  rw [if_neg (by simpa using hdf), if_neg (by simpa using hconds),
    if_neg (entityKeys_ne_empty entity hent),
    if_neg (not_not_intro (by
      rw [pyId_of_mem_entityKeys entity hent]; exact hent)),
    if_neg (by rw [hvalid]; simpa using hconds)]
  rcases h : rowMatchesOf df (pyLower (pyStrip entity))
      (condSetOf (validCondsOf (pyLower (pyStrip entity)) conds)) with
    _ | ⟨row, rest⟩
  · exact ⟨_, rfl⟩
  · simp only []
    by_cases hT : (rawLoop row
        (validCondsOf (pyLower (pyStrip entity)) conds)).2 = 0
    · rw [if_pos hT]
      exact ⟨_, rfl⟩
    · rw [if_neg hT]
      exact ⟨_, rfl⟩

/-- Key coverage of a successful `get_weights`: every requested
(applicable) condition appears among the returned keys. -/
theorem getWeights_keys_sup (df : List WRow) (entity : String)
    (conds : List String) (w : List (String × ℚ)) (hnd : conds.Nodup)
    (hconds : conds ≠ []) (hent : entity ∈ entityKeys)
    (happ : ∀ c ∈ conds, c ∈ entityConditionsOf entity)
    (hok : getWeights df entity conds = .ok w) :
    ∀ c ∈ conds, c ∈ w.map (fun kv => kv.1) := by
  have hvalid := validCondsOf_eq_self entity conds hent happ
  have hv9 : conds.length ≤ 9 := by
    rw [← hvalid]
    exact validCondsOf_len9 (pyLower (pyStrip entity)) conds hnd
  unfold getWeights at hok
  split at hok
  · exact absurd hok (by simp)
  · split at hok
    · exact absurd hok (by simp)
    · split at hok
      · exact absurd hok (by simp)
      · split at hok
        · exact absurd hok (by simp)
        · split at hok
          · exact absurd hok (by simp)
          · split at hok
            · have hw : w = equalWeights
                  (validCondsOf (pyLower (pyStrip entity)) conds) :=
                (Except.ok.inj hok).symm
              rcases equalWeights_props
                  (validCondsOf (pyLower (pyStrip entity)) conds)
                  (by rw [hvalid]; exact hnd)
                  (by rw [hvalid]; exact hconds)
                  (by rw [hvalid]; exact hv9) with ⟨hk, _, _⟩
              intro c hc
              rw [hw, hk, hvalid]
              exact hc
            · split at hok
              · have hw : w = equalWeights
                    (validCondsOf (pyLower (pyStrip entity)) conds) :=
                  (Except.ok.inj hok).symm
                rcases equalWeights_props
                    (validCondsOf (pyLower (pyStrip entity)) conds)
                    (by rw [hvalid]; exact hnd)
                    (by rw [hvalid]; exact hconds)
                    (by rw [hvalid]; exact hv9) with ⟨hk, _, _⟩
                intro c hc
                rw [hw, hk, hvalid]
                exact hc
              · rename_i row rest hrows hT
                have hw : w = adjustForRounding
                    (withZerosOf
                      (entityConditionsOf (pyLower (pyStrip entity)))
                      conds
                      (normalizedOf row
                        (validCondsOf (pyLower (pyStrip entity)) conds)))
                    (validCondsOf (pyLower (pyStrip entity)) conds) :=
                  (Except.ok.inj hok).symm
                rcases rowBranch_props row conds
                    (validCondsOf (pyLower (pyStrip entity)) conds)
                    (entityConditionsOf (pyLower (pyStrip entity)))
                    (by rw [hvalid]; exact hnd)
                    (by rw [hvalid]; exact hv9) hT with ⟨_, _, _, hcov⟩
                intro c hc
                rw [hw]
                apply hcov c hc
                rw [pyId_of_mem_entityKeys entity hent]
                exact happ c hc

/-- An unknown (lower-cased, stripped) entity type never produces a
successful weight vector: `get_weights` raises on every path. -/
theorem getWeights_unknown (df : List WRow) (entity : String)
    (conds : List String)
    (hunk : pyLower (pyStrip entity) ∉ entityKeys)
    (w : List (String × ℚ)) : getWeights df entity conds ≠ .ok w := by
  unfold getWeights
  intro hok
  by_cases h1 : df.isEmpty = true
  · rw [if_pos h1] at hok; exact absurd hok (by simp)
  · rw [if_neg h1] at hok
    by_cases h2 : conds.isEmpty = true
    · rw [if_pos h2] at hok; exact absurd hok (by simp)
    · rw [if_neg h2] at hok
      by_cases h3 : entity = ""
      · rw [if_pos h3] at hok; exact absurd hok (by simp)
      · rw [if_neg h3] at hok
        rw [if_pos (by simpa using hunk)] at hok
        exact absurd hok (by simp)

/-!
## Sorting lemmas: the stable descending sort of `match`
-/

theorem insDesc_perm (x : Annotated) (l : List Annotated) :
    (insDesc x l).Perm (x :: l) := by
  induction l with
  | nil => exact List.Perm.refl _
  | cons y ys ih =>
    rw [insDesc]
    by_cases h : x.total < y.total
    · rw [if_pos h]
      exact (ih.cons y).trans (List.Perm.swap x y ys)
    · rw [if_neg h]

theorem sortDesc_perm (l : List Annotated) : (sortDesc l).Perm l := by
  induction l with
  | nil => exact List.Perm.refl _
  | cons x xs ih =>
    rw [sortDesc]
    exact (insDesc_perm x (sortDesc xs)).trans (ih.cons x)

theorem sortDesc_length (l : List Annotated) :
    (sortDesc l).length = l.length :=
  (sortDesc_perm l).length_eq

theorem insDesc_sorted (x : Annotated) (l : List Annotated)
    (h : l.Pairwise (fun a b => b.total ≤ a.total)) :
    (insDesc x l).Pairwise (fun a b => b.total ≤ a.total) := by
  induction l with
  | nil => simp [insDesc]
  | cons y ys ih =>
    rw [insDesc]
    rcases List.pairwise_cons.mp h with ⟨hy, hys⟩
    by_cases hlt : x.total < y.total
    · rw [if_pos hlt]
      apply List.pairwise_cons.mpr
      constructor
      · intro z hz
        rcases List.mem_cons.mp ((insDesc_perm x ys).mem_iff.mp hz) with
          rfl | hzys
        · exact le_of_lt hlt
        · exact hy z hzys
      · exact ih hys
    · rw [if_neg hlt]
      apply List.pairwise_cons.mpr
      refine ⟨?_, h⟩
      intro z hz
      rcases List.mem_cons.mp hz with rfl | hzys
      · exact le_of_not_lt hlt
      · exact le_trans (hy z hzys) (le_of_not_lt hlt)

/-- The returned order is descending in total score. -/
theorem sortDesc_sorted (l : List Annotated) :
    (sortDesc l).Pairwise (fun a b => b.total ≤ a.total) := by
  induction l with
  | nil => simp [sortDesc]
  | cons x xs ih =>
    rw [sortDesc]
    exact insDesc_sorted x (sortDesc xs) ih

/-!
## Permutation invariance of the cascade and of `match`
-/

theorem runCascade_perm (fm : FieldMap) (cols : List String)
    (mapped : PyDict) (criteria : List String) :
    ∀ (fields : List (String × ℚ)) (rows rows' : List RowT),
      rows.Perm rows' →
      (runCascade fm cols mapped criteria fields rows).Perm
        (runCascade fm cols mapped criteria fields rows') := by
  intro fields
  induction fields with
  | nil =>
    intro rows rows' h
    exact h
  | cons ft rest ih =>
    intro rows rows' h
    rw [runCascade, runCascade]
    have hemp : rows.isEmpty = rows'.isEmpty := by
      have hlen := h.length_eq
      rcases rows with _ | ⟨a, as⟩ <;> rcases rows' with _ | ⟨b, bs⟩ <;>
        simp_all
    by_cases hskip : ¬ (ft.1 ∈ criteria) ∨ rows.isEmpty
    · have hskip2 : ¬ (ft.1 ∈ criteria) ∨ rows'.isEmpty := by
        rwa [hemp] at hskip
      rw [if_pos hskip, if_pos hskip2]
      exact ih rows rows' h
    · have hskip2 : ¬ (¬ (ft.1 ∈ criteria) ∨ rows'.isEmpty) := by
        rwa [hemp] at hskip
      rw [if_neg hskip, if_neg hskip2]
      by_cases hu : fieldUsable fm cols mapped ft.1 = true
      · rw [if_neg (not_not_intro hu), if_neg (not_not_intro hu)]
        have hf : (rows.filter
              (fun r => decide (ft.2 ≤ fieldTextSim fm mapped ft.1 r))).Perm
            (rows'.filter
              (fun r => decide (ft.2 ≤ fieldTextSim fm mapped ft.1 r))) :=
          h.filter _
        by_cases hle : (rows.filter
            (fun r => decide (ft.2 ≤ fieldTextSim fm mapped ft.1 r))).length ≤
            maxCandidatesAfterPrefilter
        · have hle2 : (rows'.filter
              (fun r => decide (ft.2 ≤ fieldTextSim fm mapped ft.1 r))).length ≤
              maxCandidatesAfterPrefilter := by
            rwa [hf.length_eq] at hle
          rw [if_pos hle, if_pos hle2]
          exact hf
        · have hle2 : ¬ (rows'.filter
              (fun r => decide (ft.2 ≤ fieldTextSim fm mapped ft.1 r))).length ≤
              maxCandidatesAfterPrefilter := by
            rwa [hf.length_eq] at hle
          rw [if_neg hle, if_neg hle2]
          exact ih _ _ hf
      · rw [if_pos hu, if_pos hu]
        exact ih rows rows' h

theorem zfillAccountRows_perm (fm : FieldMap) (cbs cbs' : DFrame)
    (hcols : cbs'.cols = cbs.cols) (hrows : cbs'.rows.Perm cbs.rows) :
    (zfillAccountRows fm cbs').Perm (zfillAccountRows fm cbs) := by
  unfold zfillAccountRows
  rcases fmGet fm "account_no" with _ | p
  · exact hrows
  · simp only []
    rw [hcols]
    by_cases hc : ¬ (p.1 = "") ∧ p.1 ∈ cbs.cols
    · rw [if_pos hc, if_pos hc]
      exact hrows.map _
    · rw [if_neg hc, if_neg hc]
      exact hrows

/-- Two reference frames with the same columns and permuted rows give
`match` environments differing only in the working rows. -/
theorem mkMatchEnv_eq (imap instmap : FieldMap) (df : List WRow)
    (cbs cbs' : DFrame) (source : PyDict) (hcols : cbs'.cols = cbs.cols) :
    mkMatchEnv imap instmap df cbs' source =
      { mkMatchEnv imap instmap df cbs source with
        rows0 := zfillAccountRows
          (if determineEntityType source = "individual" then imap
           else instmap) cbs' } := by
  unfold mkMatchEnv
  simp only []
  rw [hcols]

theorem envMatched_perm_of (env : MatchEnv) (rowsA rowsB : List RowT)
    (θ : ℚ) (h : rowsA.Perm rowsB) :
    (envMatched { env with rows0 := rowsA } θ).Perm
      (envMatched { env with rows0 := rowsB } θ) := by
  unfold envMatched envPre
  exact (runCascade_perm env.fm env.cols env.mapped env.criteria
    prefilterFields rowsA rowsB h).filter _

theorem perm_isEmpty_eq {α : Type} {l1 l2 : List α} (h : l1.Perm l2) :
    l1.isEmpty = l2.isEmpty := by
  have hlen := h.length_eq
  rcases l1 with _ | ⟨a, as⟩ <;> rcases l2 with _ | ⟨b, bs⟩ <;> simp_all

/-- Permutation invariance of the whole `match` result, as long as the
thresholded row count is within the truncation cap. -/
theorem matchFn_perm_core (imap instmap : FieldMap) (maxMatches : ℕ)
    (df : List WRow) (cbs cbs' : DFrame) (source : PyDict) (θ : ℚ)
    (hcols : cbs'.cols = cbs.cols) (hrows : cbs'.rows.Perm cbs.rows)
    (hlen : (envMatched (mkMatchEnv imap instmap df cbs source) θ).length ≤
      maxMatches) :
    (matchFn imap instmap maxMatches df cbs' source θ).Perm
      (matchFn imap instmap maxMatches df cbs source θ) := by
  have hme := mkMatchEnv_eq imap instmap df cbs cbs' source hcols
  have hZ : (zfillAccountRows
      (if determineEntityType source = "individual" then imap else instmap)
      cbs').Perm ((mkMatchEnv imap instmap df cbs source).rows0) :=
    zfillAccountRows_perm _ cbs cbs' hcols hrows
  have hM : (envMatched { mkMatchEnv imap instmap df cbs source with
      rows0 := zfillAccountRows
        (if determineEntityType source = "individual" then imap else instmap)
        cbs' } θ).Perm
      (envMatched (mkMatchEnv imap instmap df cbs source) θ) :=
    envMatched_perm_of (mkMatchEnv imap instmap df cbs source) _ _ θ hZ
  have hpre : (envPre { mkMatchEnv imap instmap df cbs source with
      rows0 := zfillAccountRows
        (if determineEntityType source = "individual" then imap else instmap)
        cbs' }).Perm (envPre (mkMatchEnv imap instmap df cbs source)) := by
    unfold envPre
    exact runCascade_perm (mkMatchEnv imap instmap df cbs source).fm
      (mkMatchEnv imap instmap df cbs source).cols
      (mkMatchEnv imap instmap df cbs source).mapped
      (mkMatchEnv imap instmap df cbs source).criteria prefilterFields _ _ hZ
  unfold matchFn
  rw [hme]
  have h1 : cbs'.rows.isEmpty = cbs.rows.isEmpty := perm_isEmpty_eq hrows
  by_cases hb1 : cbs.rows.isEmpty = true
  · have hb1' : cbs'.rows.isEmpty = true := by rw [h1]; exact hb1
    rw [if_pos hb1', if_pos hb1]
  · have hb1' : ¬ cbs'.rows.isEmpty = true := by rw [h1]; exact hb1
    rw [if_neg hb1', if_neg hb1]
    by_cases hb2 : (mkMatchEnv imap instmap df cbs source).criteria.isEmpty
      = true
    · have hb2' : ({ mkMatchEnv imap instmap df cbs source with
          rows0 := zfillAccountRows
            (if determineEntityType source = "individual" then imap
             else instmap) cbs' }).criteria.isEmpty = true := hb2
      rw [if_pos hb2', if_pos hb2]
    · have hb2' : ¬ ({ mkMatchEnv imap instmap df cbs source with
          rows0 := zfillAccountRows
            (if determineEntityType source = "individual" then imap
             else instmap) cbs' }).criteria.isEmpty = true := hb2
      rw [if_neg hb2', if_neg hb2]
      have h3 := perm_isEmpty_eq hpre
      by_cases hb3 : (envPre (mkMatchEnv imap instmap df cbs source)).isEmpty
        = true
      · have hb3' : (envPre { mkMatchEnv imap instmap df cbs source with
            rows0 := zfillAccountRows
              (if determineEntityType source = "individual" then imap
               else instmap) cbs' }).isEmpty = true := by rw [h3]; exact hb3
        rw [if_pos hb3', if_pos hb3]
      · have hb3' : ¬ (envPre { mkMatchEnv imap instmap df cbs source with
            rows0 := zfillAccountRows
              (if determineEntityType source = "individual" then imap
               else instmap) cbs' }).isEmpty = true := by rw [h3]; exact hb3
        rw [if_neg hb3', if_neg hb3]
        have h4 := perm_isEmpty_eq hM
        by_cases hb4 : (envMatched (mkMatchEnv imap instmap df cbs source)
            θ).isEmpty = true
        · have hb4' : (envMatched { mkMatchEnv imap instmap df cbs source with
              rows0 := zfillAccountRows
                (if determineEntityType source = "individual" then imap
                 else instmap) cbs' } θ).isEmpty = true := by
            rw [h4]; exact hb4
          rw [if_pos hb4', if_pos hb4]
        · have hb4' : ¬ (envMatched { mkMatchEnv imap instmap df cbs source with
              rows0 := zfillAccountRows
                (if determineEntityType source = "individual" then imap
                 else instmap) cbs' } θ).isEmpty = true := by
            rw [h4]; exact hb4
          rw [if_neg hb4', if_neg hb4]
          have hann : annotateRow { mkMatchEnv imap instmap df cbs source with
              rows0 := zfillAccountRows
                (if determineEntityType source = "individual" then imap
                 else instmap) cbs' } =
              annotateRow (mkMatchEnv imap instmap df cbs source) := rfl
          rw [hann]
          have hlenA : (sortDesc ((envMatched
              { mkMatchEnv imap instmap df cbs source with
                rows0 := zfillAccountRows
                  (if determineEntityType source = "individual" then imap
                   else instmap) cbs' } θ).map
              (annotateRow (mkMatchEnv imap instmap df cbs source)))).length ≤
              maxMatches := by
            rw [sortDesc_length, List.length_map, hM.length_eq]
            exact hlen
          have hlenB : (sortDesc ((envMatched
              (mkMatchEnv imap instmap df cbs source) θ).map
              (annotateRow (mkMatchEnv imap instmap df cbs source)))).length ≤
              maxMatches := by
            rw [sortDesc_length, List.length_map]
            exact hlen
          rw [List.take_of_length_le hlenA, List.take_of_length_le hlenB]
          exact (sortDesc_perm _).trans
            ((hM.map _).trans (sortDesc_perm _).symm)

/-!
## Cascade-order lemmas (fixed field order, skip, early stop, empty exit)
-/

/-- The cascade is insensitive to prefilter fields outside the criteria:
they are skipped. -/
theorem runCascade_only_criteria (fm : FieldMap) (cols : List String)
    (mapped : PyDict) (criteria : List String) :
    ∀ (fields : List (String × ℚ)) (rows : List RowT),
      runCascade fm cols mapped criteria fields rows =
        runCascade fm cols mapped criteria
          (fields.filter (fun ft => decide (ft.1 ∈ criteria))) rows := by
  intro fields
  induction fields with
  | nil => intro rows; rfl
  | cons ft rest ih =>
    intro rows
    rw [List.filter_cons]
    by_cases hc : ft.1 ∈ criteria
    · rw [if_pos (by simpa using hc)]
      rw [runCascade, runCascade]
      by_cases hskip : ¬ (ft.1 ∈ criteria) ∨ rows.isEmpty
      · rw [if_pos hskip, if_pos hskip]
        exact ih rows
      · rw [if_neg hskip, if_neg hskip]
        by_cases hu : fieldUsable fm cols mapped ft.1 = true
        · rw [if_neg (not_not_intro hu), if_neg (not_not_intro hu)]
          by_cases hle : (rows.filter
              (fun r => decide (ft.2 ≤ fieldTextSim fm mapped ft.1 r))).length
              ≤ maxCandidatesAfterPrefilter
          · rw [if_pos hle, if_pos hle]
          · rw [if_neg hle, if_neg hle]
            exact ih _
        · rw [if_pos hu, if_pos hu]
          exact ih rows
    · rw [if_neg (by simpa using hc)]
      rw [runCascade, if_pos (Or.inl hc)]
      exact ih rows

/-- The `break`: once a pass leaves at most the cap's worth of
candidates, the cascade returns them at once — later fields are not
applied. -/
theorem runCascade_early_stop (fm : FieldMap) (cols : List String)
    (mapped : PyDict) (criteria : List String) (ft : String × ℚ)
    (rest : List (String × ℚ)) (rows : List RowT)
    (hc : ft.1 ∈ criteria) (hne : rows ≠ [])
    (hu : fieldUsable fm cols mapped ft.1 = true)
    (hle : (rows.filter
      (fun r => decide (ft.2 ≤ fieldTextSim fm mapped ft.1 r))).length ≤
      maxCandidatesAfterPrefilter) :
    runCascade fm cols mapped criteria (ft :: rest) rows =
      rows.filter (fun r => decide (ft.2 ≤ fieldTextSim fm mapped ft.1 r)) := by
  rw [runCascade,
    if_neg (by rw [not_or]; exact ⟨not_not_intro hc, by simpa using hne⟩),
    if_neg (not_not_intro hu), if_pos hle]

/-- An empty prefilter result short-circuits `match` to the empty
(`Unmatched`) result before any scoring. -/
theorem matchFn_of_pre_empty (imap instmap : FieldMap) (maxMatches : ℕ)
    (df : List WRow) (cbs : DFrame) (source : PyDict) (θ : ℚ)
    (h : envPre (mkMatchEnv imap instmap df cbs source) = []) :
    matchFn imap instmap maxMatches df cbs source θ = [] := by
  unfold matchFn
  by_cases h1 : cbs.rows.isEmpty = true
  · rw [if_pos h1]
  · rw [if_neg h1]
    by_cases h2 : (mkMatchEnv imap instmap df cbs source).criteria.isEmpty
      = true
    · rw [if_pos h2]
    · rw [if_neg h2, if_pos (by rw [h]; rfl)]

/-- `get_ticket_matches` reports `Unmatched` exactly when `match` returns
the empty result. -/
theorem getTicketMatches_unmatched_iff (imap instmap : FieldMap)
    (maxMatches : ℕ) (df : List WRow) (cbs : DFrame) (source : PyDict)
    (ticketId : String) (θ : ℚ) :
    (getTicketMatches imap instmap maxMatches df cbs source ticketId θ).1 =
        "Unmatched" ↔
      matchFn imap instmap maxMatches df cbs
        (pyInsert source "entity_type"
          (.vstr (determineEntityType source))) θ = [] := by
  unfold getTicketMatches
  simp only []
  by_cases h : (matchFn imap instmap maxMatches df cbs
      (pyInsert source "entity_type"
        (.vstr (determineEntityType source))) θ).isEmpty = true
  · rw [if_pos h]
    exact iff_of_true rfl (List.isEmpty_iff.mp h)
  · rw [if_neg h]
    refine iff_of_false ?_ ?_
    · intro he
      have hms : "Matched" = "Unmatched" := he
      exact absurd hms (by decide)
    · intro he
      exact h (by rw [he]; rfl)

/-- Every cascade step only ever filters: the surviving candidates are a
subsequence of the working rows, in their original order. -/
theorem runCascade_sublist (fm : FieldMap) (cols : List String)
    (mapped : PyDict) (criteria : List String) :
    ∀ (fields : List (String × ℚ)) (rows : List RowT),
      (runCascade fm cols mapped criteria fields rows).Sublist rows := by
  intro fields
  induction fields with
  | nil => intro rows; exact List.Sublist.refl rows
  | cons ft rest ih =>
    intro rows
    rw [runCascade]
    split
    · exact ih rows
    · split
      · exact ih rows
      · split
        · exact List.filter_sublist rows
        · exact (ih _).trans (List.filter_sublist rows)

/-- The thresholded rows reaching `Matched` are a subsequence of the
working rows: before sorting, original reference order is preserved. -/
theorem envMatched_sublist (env : MatchEnv) (θ : ℚ) :
    (envMatched env θ).Sublist env.rows0 :=
  (List.filter_sublist _).trans
    (runCascade_sublist env.fm env.cols env.mapped env.criteria
      prefilterFields env.rows0)

/-!
## The claims
-/

theorem claim_C1_witness :
    envMatched (mkMatchEnv imapC1 [] [] cbsC1 srcC1) (9/10) =
      envFullMatched (mkMatchEnv imapC1 [] [] cbsC1 srcC1) (9/10) :=
  claim_C1 imapC1 [] [] cbsC1 srcC1 (9/10) (by with_unfolding_all decide)

/-- C2.  Weight resolution on a known entity type: for every non-empty
weight table, known entity type and non-empty duplicate-free condition
list applicable to that entity, `get_weights` succeeds with a vector
whose values are nonnegative and sum to exactly 1 (hence to 1.00 ± 0.01)
and whose keys include every requested condition (possibly at 0.0); and
`_adjust_for_rounding` either returns its input unchanged or adds the
rounding residual `round(1 - total, 2)` to a single maximal-weight
positive valid field. -/
theorem claim_C2 :
    (∀ (df : List WRow) (entity : String) (conds : List String),
        df ≠ [] → conds ≠ [] → conds.Nodup → entity ∈ entityKeys →
        (∀ c ∈ conds, c ∈ entityConditionsOf entity) →
        ∃ w, getWeights df entity conds = .ok w ∧ wSum w = 1 ∧
          (∀ kv ∈ w, 0 ≤ kv.2) ∧ ∀ c ∈ conds, c ∈ w.map (fun kv => kv.1)) ∧
    (∀ (w : List (String × ℚ)) (valid : List String),
        adjustForRounding w valid = w ∨
        ∃ k, k ∈ vpfList w valid ∧
          (∀ kk ∈ vpfList w valid, wGetD w kk ≤ wGetD w k) ∧
          adjustForRounding w valid =
            wSet w k (round2 (wGetD w k + round2 (1 - wSum w)))) := by
  constructor
  · intro df entity conds hdf hconds hnd hent happ
    obtain ⟨w, hok⟩ := getWeights_isOk df entity conds hdf hconds hent happ
    obtain ⟨_, hnn, hsum⟩ := getWeights_ok_props df entity conds w hnd hok
    exact ⟨w, hok, hsum, hnn,
      getWeights_keys_sup df entity conds w hnd hconds hent happ hok⟩
  · intro w valid
    unfold adjustForRounding
    split
    · left; rfl
    · split
      · left; rfl
      · split
        · left; rfl
        · rename_i k0 ks hvpf
          right
          refine ⟨firstMaxBy (wGetD w) k0 ks, ?_, ?_, rfl⟩
          · rw [hvpf]
            exact firstMaxBy_mem (wGetD w) ks k0
          · intro kk hkk
            rw [hvpf] at hkk
            exact firstMaxBy_max (wGetD w) ks k0 kk hkk

theorem claim_C2_witness :
    ∃ w, getWeights dfEx "individual" ["name", "dob"] = .ok w ∧
      wSum w = 1 ∧ (∀ kv ∈ w, 0 ≤ kv.2) ∧
      ∀ c ∈ (["name", "dob"] : List String), c ∈ w.map (fun kv => kv.1) :=
  claim_C2.1 dfEx "individual" ["name", "dob"] (List.cons_ne_nil _ _)
    (List.cons_ne_nil _ _) (by with_unfolding_all decide)
    (by with_unfolding_all decide) (by with_unfolding_all decide)

/-- C3.  Contrary to the claim, weight resolution rejects the entity
type `institution`: `ENTITY_CONDITIONS` is keyed by `institutional`, so
`get_weights` raises its unknown-entity error for `institution` whatever
the (non-empty) table and condition list. -/
theorem claim_C3 (df : List WRow) (conds : List String) (hdf : df ≠ [])
    (hconds : conds ≠ []) :
    getWeights df "institution" conds = .error "unknown entity type" := by
  unfold getWeights
  rw [if_neg (by simpa using hdf), if_neg (by simpa using hconds),
    if_neg (by decide), if_pos (by decide)]

theorem claim_C3_witness :
    getWeights [⟨"individual", "Name", [("Name", some 1)]⟩] "institution"
      ["name"] = .error "unknown entity type" :=
  claim_C3 _ _ (List.cons_ne_nil _ _) (List.cons_ne_nil _ _)

/-- C4 (amended).  An unrecognized `entity_type` is NOT surfaced as an
error: `_get_normalized_weights` catches the unknown-entity exception
and silently substitutes the equal weighting `1/n` over the available
criteria, and the match proceeds normally. -/
theorem claim_C4 (df : List WRow) (record : PyDict)
    (criteria : List String) (hcrit : criteria ≠ [])
    (hunk : pyLower (pyStrip (determineEntityType record)) ∉ entityKeys) :
    getNormalizedWeights df record criteria =
      wDictOf (criteria.map (fun c => (c, 1 / (criteria.length : ℚ)))) := by
  unfold getNormalizedWeights
  rcases hgw : getWeights df (determineEntityType record) criteria with e | w
  · simp only []
    rw [if_neg (by simpa using hcrit)]
  · exact absurd hgw (getWeights_unknown df _ criteria hunk w)

theorem claim_C4_witness :
    getNormalizedWeights [] srcAlien ["name", "dob"] =
      wDictOf ((["name", "dob"] : List String).map
        (fun c => (c, 1 / (((["name", "dob"] : List String).length : ℚ))))) :=
  claim_C4 [] srcAlien ["name", "dob"] (List.cons_ne_nil _ _)
    (by with_unfolding_all decide)

theorem claim_C4_counterexample :
    determineEntityType srcAlien = "alien" ∧
    getNormalizedWeights [⟨"individual", "Name", [("Name", some 1)]⟩]
        srcAlien ["name"] = [("name", 1)] ∧
    (getTicketMatches [] instmapAcme 10
        [⟨"individual", "Name", [("Name", some 1)]⟩] cbsAcme srcAlien "7"
        (9/10)).1 = "Matched" ∧
    (getTicketMatches [] instmapAcme 10
        [⟨"individual", "Name", [("Name", some 1)]⟩] cbsAcme srcAlien "7"
        (9/10)).2.1 ≠ [] := by
  refine ⟨rfl, by with_unfolding_all decide, by with_unfolding_all decide,
    by with_unfolding_all decide⟩

/-- C5 (amended).  Permuting the reference rows (same columns) leaves
the multiset of thresholded rows and their total scores unchanged
before sorting, and the candidates enter the sort in their original
reference order (a subsequence of the working rows).
`sort_values("total_score", ascending=False)` runs the default
quicksort, which is not stable, so the program guarantees only a
descending-ordered permutation (`IsDescSortOf`) and no stable
tie-break; the engine's concrete `sortDesc` is one admissible outcome.
For every admissible sort outcome the returned truncation is sorted
descending by total score and at most the policy maximum long, and so
is the modelled `match` result; whenever the thresholded row count is
within that maximum, the returned multiset is the same for every
admissible sort outcome and is invariant under permutation of the
reference rows (both for arbitrary outcomes and for the modelled
`match`).  With equal scores straddling the cap, the returned set
depends on the unspecified tie order — see the counterexample, which
refutes the original unconditional set-invariance. -/
theorem claim_C5 :
    (∀ (imap instmap : FieldMap) (df : List WRow) (cbs cbs' : DFrame)
        (source : PyDict) (θ : ℚ),
        cbs'.cols = cbs.cols → cbs'.rows.Perm cbs.rows →
        ((envMatched (mkMatchEnv imap instmap df cbs' source) θ).map
            (fun r =>
              (r, envTotal (mkMatchEnv imap instmap df cbs' source) r))).Perm
          ((envMatched (mkMatchEnv imap instmap df cbs source) θ).map
            (fun r =>
              (r, envTotal (mkMatchEnv imap instmap df cbs source) r)))) ∧
    (∀ (env : MatchEnv) (θ : ℚ), (envMatched env θ).Sublist env.rows0) ∧
    (∀ l : List Annotated, IsDescSortOf (sortDesc l) l) ∧
    (∀ (l s : List Annotated) (maxM : ℕ), IsDescSortOf s l →
        (s.take maxM).Pairwise (fun a b => b.total ≤ a.total) ∧
        (s.take maxM).length ≤ maxM) ∧
    (∀ (imap instmap : FieldMap) (maxMatches : ℕ) (df : List WRow)
        (cbs : DFrame) (source : PyDict) (θ : ℚ),
        (matchFn imap instmap maxMatches df cbs source θ).Pairwise
          (fun a b => b.total ≤ a.total) ∧
        (matchFn imap instmap maxMatches df cbs source θ).length ≤
          maxMatches) ∧
    (∀ (l s1 s2 : List Annotated) (maxM : ℕ),
        IsDescSortOf s1 l → IsDescSortOf s2 l → l.length ≤ maxM →
        (s1.take maxM).Perm (s2.take maxM)) ∧
    (∀ (imap instmap : FieldMap) (maxMatches : ℕ) (df : List WRow)
        (cbs cbs' : DFrame) (source : PyDict) (θ : ℚ)
        (s1 s2 : List Annotated),
        cbs'.cols = cbs.cols → cbs'.rows.Perm cbs.rows →
        IsDescSortOf s1
          ((envMatched (mkMatchEnv imap instmap df cbs' source) θ).map
            (annotateRow (mkMatchEnv imap instmap df cbs' source))) →
        IsDescSortOf s2
          ((envMatched (mkMatchEnv imap instmap df cbs source) θ).map
            (annotateRow (mkMatchEnv imap instmap df cbs source))) →
        (envMatched (mkMatchEnv imap instmap df cbs source) θ).length ≤
          maxMatches →
        (s1.take maxMatches).Perm (s2.take maxMatches)) ∧
    (∀ (imap instmap : FieldMap) (maxMatches : ℕ) (df : List WRow)
        (cbs cbs' : DFrame) (source : PyDict) (θ : ℚ),
        cbs'.cols = cbs.cols → cbs'.rows.Perm cbs.rows →
        (envMatched (mkMatchEnv imap instmap df cbs source) θ).length ≤
          maxMatches →
        (matchFn imap instmap maxMatches df cbs' source θ).Perm
          (matchFn imap instmap maxMatches df cbs source θ)) := by
  refine ⟨?_, fun env θ => envMatched_sublist env θ,
    fun l => ⟨sortDesc_perm l, sortDesc_sorted l⟩, ?_, ?_, ?_, ?_, ?_⟩
  · intro imap instmap df cbs cbs' source θ hcols hperm
    rw [mkMatchEnv_eq imap instmap df cbs cbs' source hcols]
    have hZ : (zfillAccountRows
        (if determineEntityType source = "individual" then imap else instmap)
        cbs').Perm ((mkMatchEnv imap instmap df cbs source).rows0) :=
      zfillAccountRows_perm _ cbs cbs' hcols hperm
    have hM : (envMatched { mkMatchEnv imap instmap df cbs source with
        rows0 := zfillAccountRows
          (if determineEntityType source = "individual" then imap
           else instmap) cbs' } θ).Perm
        (envMatched (mkMatchEnv imap instmap df cbs source) θ) :=
      envMatched_perm_of (mkMatchEnv imap instmap df cbs source) _ _ θ hZ
    exact hM.map _
  · intro l s maxM hs
    exact ⟨List.Pairwise.sublist (List.take_sublist _ _) hs.2,
      List.length_take_le _ _⟩
  · intro imap instmap maxMatches df cbs source θ
    constructor
    · unfold matchFn
      split
      · exact List.Pairwise.nil
      · split
        · exact List.Pairwise.nil
        · split
          · exact List.Pairwise.nil
          · split
            · exact List.Pairwise.nil
            · exact List.Pairwise.sublist (List.take_sublist _ _)
                (sortDesc_sorted _)
    · unfold matchFn
      split
      · simp
      · split
        · simp
        · split
          · simp
          · split
            · simp
            · exact List.length_take_le _ _
  · intro l s1 s2 maxM h1 h2 hlen
    have hl1 : s1.length ≤ maxM := by rw [h1.1.length_eq]; exact hlen
    have hl2 : s2.length ≤ maxM := by rw [h2.1.length_eq]; exact hlen
    rw [List.take_of_length_le hl1, List.take_of_length_le hl2]
    exact h1.1.trans h2.1.symm
  · intro imap instmap maxMatches df cbs cbs' source θ s1 s2 hcols hperm h1
      h2 hlen
    rw [mkMatchEnv_eq imap instmap df cbs cbs' source hcols] at h1
    have hann : annotateRow { mkMatchEnv imap instmap df cbs source with
        rows0 := zfillAccountRows
          (if determineEntityType source = "individual" then imap
           else instmap) cbs' } =
        annotateRow (mkMatchEnv imap instmap df cbs source) := rfl
    rw [hann] at h1
    have hZ : (zfillAccountRows
        (if determineEntityType source = "individual" then imap else instmap)
        cbs').Perm ((mkMatchEnv imap instmap df cbs source).rows0) :=
      zfillAccountRows_perm _ cbs cbs' hcols hperm
    have hM : (envMatched { mkMatchEnv imap instmap df cbs source with
        rows0 := zfillAccountRows
          (if determineEntityType source = "individual" then imap
           else instmap) cbs' } θ).Perm
        (envMatched (mkMatchEnv imap instmap df cbs source) θ) :=
      envMatched_perm_of (mkMatchEnv imap instmap df cbs source) _ _ θ hZ
    have hA := hM.map
      (annotateRow (mkMatchEnv imap instmap df cbs source))
    have hs1 : s1.Perm
        ((envMatched (mkMatchEnv imap instmap df cbs source) θ).map
          (annotateRow (mkMatchEnv imap instmap df cbs source))) :=
      h1.1.trans hA
    have hl1 : s1.length ≤ maxMatches := by
      rw [hs1.length_eq, List.length_map]
      exact hlen
    have hl2 : s2.length ≤ maxMatches := by
      rw [h2.1.length_eq, List.length_map]
      exact hlen
    rw [List.take_of_length_le hl1, List.take_of_length_le hl2]
    exact hs1.trans h2.1.symm
  · intro imap instmap maxMatches df cbs cbs' source θ hcols hperm hlen
    exact matchFn_perm_core imap instmap maxMatches df cbs cbs' source θ
      hcols hperm hlen

theorem claim_C5_witness :
    (((envMatched (mkMatchEnv imapEx [] [] cbsEx2 srcEx) (1/2)).map
        (fun r => (r, envTotal (mkMatchEnv imapEx [] [] cbsEx2 srcEx) r))).Perm
      ((envMatched (mkMatchEnv imapEx [] [] cbsEx1 srcEx) (1/2)).map
        (fun r =>
          (r, envTotal (mkMatchEnv imapEx [] [] cbsEx1 srcEx) r)))) ∧
    (((sortDesc annEx1).take 2).Pairwise (fun a b => b.total ≤ a.total) ∧
      ((sortDesc annEx1).take 2).length ≤ 2) ∧
    ((sortDesc annEx1).take 2).Perm ((sortDesc annEx1).take 2) ∧
    ((sortDesc annEx2).take 2).Perm ((sortDesc annEx1).take 2) ∧
    (matchFn imapEx [] 2 [] cbsEx2 srcEx (1/2)).Perm
      (matchFn imapEx [] 2 [] cbsEx1 srcEx (1/2)) :=
  ⟨claim_C5.1 imapEx [] [] cbsEx1 cbsEx2 srcEx (1/2) rfl
      (List.Perm.swap _ _ _),
   claim_C5.2.2.2.1 annEx1 (sortDesc annEx1) 2
     ⟨sortDesc_perm annEx1, sortDesc_sorted annEx1⟩,
   claim_C5.2.2.2.2.2.1 annEx1 (sortDesc annEx1) (sortDesc annEx1) 2
     ⟨sortDesc_perm annEx1, sortDesc_sorted annEx1⟩
     ⟨sortDesc_perm annEx1, sortDesc_sorted annEx1⟩
     (by with_unfolding_all decide),
   claim_C5.2.2.2.2.2.2.1 imapEx [] 2 [] cbsEx1 cbsEx2 srcEx (1/2)
     (sortDesc annEx2) (sortDesc annEx1) rfl (List.Perm.swap _ _ _)
     ⟨sortDesc_perm annEx2, sortDesc_sorted annEx2⟩
     ⟨sortDesc_perm annEx1, sortDesc_sorted annEx1⟩
     (by with_unfolding_all decide),
   claim_C5.2.2.2.2.2.2.2 imapEx [] 2 [] cbsEx1 cbsEx2 srcEx (1/2) rfl
     (List.Perm.swap _ _ _) (by with_unfolding_all decide)⟩

theorem claim_C5_counterexample :
    cbsEx2.cols = cbsEx1.cols ∧ cbsEx2.rows.Perm cbsEx1.rows ∧
    (matchFn imapEx [] 1 [] cbsEx2 srcEx (1/2)).map (fun a => a.row) ≠
      (matchFn imapEx [] 1 [] cbsEx1 srcEx (1/2)).map (fun a => a.row) :=
  ⟨rfl, List.Perm.swap _ _ _, by with_unfolding_all decide⟩

/-- C6.  The prefilter cascade works through the fixed field/threshold
list `account_no ≥ 0.7, citizenship_no ≥ 0.4, registration_no ≥ 0.5,
name ≥ 0.5` in that order; fields outside the criteria are skipped
(filtering the field list to the criteria changes nothing); once a pass
leaves at most the fixed cap of 100 candidates the cascade stops and
later fields are not applied; and an empty prefilter result makes
`match` return the empty result, reported as `Unmatched`. -/
theorem claim_C6 :
    prefilterFields = [("account_no", 7/10), ("citizenship_no", 2/5),
      ("registration_no", 1/2), ("name", 1/2)] ∧
    maxCandidatesAfterPrefilter = 100 ∧
    (∀ (fm : FieldMap) (cols : List String) (mapped : PyDict)
        (criteria : List String) (fields : List (String × ℚ))
        (rows : List RowT),
        runCascade fm cols mapped criteria fields rows =
          runCascade fm cols mapped criteria
            (fields.filter (fun ft => decide (ft.1 ∈ criteria))) rows) ∧
    (∀ (fm : FieldMap) (cols : List String) (mapped : PyDict)
        (criteria : List String) (ft : String × ℚ)
        (rest : List (String × ℚ)) (rows : List RowT),
        ft.1 ∈ criteria → rows ≠ [] →
        fieldUsable fm cols mapped ft.1 = true →
        (rows.filter (fun r =>
            decide (ft.2 ≤ fieldTextSim fm mapped ft.1 r))).length ≤
          maxCandidatesAfterPrefilter →
        runCascade fm cols mapped criteria (ft :: rest) rows =
          rows.filter (fun r =>
            decide (ft.2 ≤ fieldTextSim fm mapped ft.1 r))) ∧
    (∀ (imap instmap : FieldMap) (maxMatches : ℕ) (df : List WRow)
        (cbs : DFrame) (source : PyDict) (θ : ℚ),
        envPre (mkMatchEnv imap instmap df cbs source) = [] →
        matchFn imap instmap maxMatches df cbs source θ = []) ∧
    (∀ (imap instmap : FieldMap) (maxMatches : ℕ) (df : List WRow)
        (cbs : DFrame) (source : PyDict) (ticketId : String) (θ : ℚ),
        (getTicketMatches imap instmap maxMatches df cbs source ticketId
            θ).1 = "Unmatched" ↔
          matchFn imap instmap maxMatches df cbs
            (pyInsert source "entity_type"
              (.vstr (determineEntityType source))) θ = []) :=
  ⟨rfl, rfl,
   fun fm cols mapped criteria => runCascade_only_criteria fm cols mapped
     criteria,
   fun fm cols mapped criteria ft rest rows hc hne hu hle =>
     runCascade_early_stop fm cols mapped criteria ft rest rows hc hne hu
       hle,
   fun imap instmap maxMatches df cbs source θ h =>
     matchFn_of_pre_empty imap instmap maxMatches df cbs source θ h,
   fun imap instmap maxMatches df cbs source ticketId θ =>
     getTicketMatches_unmatched_iff imap instmap maxMatches df cbs source
       ticketId θ⟩

theorem claim_C6_witness :
    runCascade imapEx ["NAME"] [("name", PyVal.vstr "AB")] ["name"]
        (("name", (1:ℚ)/2) :: [("citizenship_no", (2:ℚ)/5)]) cbsEx1.rows =
      cbsEx1.rows.filter (fun r =>
        decide (("name", (1:ℚ)/2).2 ≤
          fieldTextSim imapEx [("name", PyVal.vstr "AB")]
            ("name", (1:ℚ)/2).1 r)) ∧
    matchFn imapEx [] 5 [] ⟨["NAME"], [[("NAME", some "ZZ")]]⟩ srcEx
      (1/2) = [] :=
  ⟨claim_C6.2.2.2.1 imapEx ["NAME"] [("name", PyVal.vstr "AB")] ["name"]
      ("name", (1:ℚ)/2) [("citizenship_no", (2:ℚ)/5)] cbsEx1.rows
      (by with_unfolding_all decide) (by simp [cbsEx1])
      (by with_unfolding_all decide) (by with_unfolding_all decide),
   claim_C6.2.2.2.2.1 imapEx [] 5 []
     ⟨["NAME"], [[("NAME", some "ZZ")]]⟩ srcEx (1/2)
       (by with_unfolding_all decide)⟩

/-- C7.  `standardize_date_format` is the first-success scan of the
fixed, ordered layout list, reformatted as `YYYYMMDD` (`none` when no
layout parses); being a pure function it is deterministic, and on
shapes shared by day-first and month-first layouts — `01-02-2020`,
`01/02/2020`, `01.02.2020` — the day-first layout wins, giving
February 1st. -/
theorem claim_C7 :
    (∀ s : String, standardizeDateFormat s =
        if s = "" then none
        else dateFormats.findSome?
          (fun fmt => (tryFmt fmt s).map fmtYYYYMMDD)) ∧
    standardizeDateFormat "01-02-2020" = some "20200201" ∧
    standardizeDateFormat "01/02/2020" = some "20200201" ∧
    standardizeDateFormat "01.02.2020" = some "20200201" ∧
    standardizeDateFormat "99-99-9999" = none := by
  refine ⟨?_, by decide, by decide, by decide, by decide⟩
  intro s
  unfold standardizeDateFormat
  by_cases h : s = ""
  · rw [if_pos h, if_pos h]
  · rw [if_neg h, if_neg h]
    exact tryFormatsLoop_eq_findSome s dateFormats

/-- C8 (amended).  Text normalization is idempotent exactly on the
inputs whose normal form contains no space: `default_process` replaces
each non-alphanumeric character by a space and only trims the ends, so
a space-free normal form is a fixed point, while an inner punctuation
character (see the counterexample) yields an inner space that the
second pass removes. -/
theorem claim_C8 (s : String)
    (h : ∀ c ∈ (preprocessText s).toList, ¬ (c = ' ')) :
    preprocessText (preprocessText s) = preprocessText s := by
  unfold preprocessText at h ⊢
  have hLt : (String.mk (defaultProcess
      (removeSpaces (stripChars s.toList)))).toList =
      defaultProcess (removeSpaces (stripChars s.toList)) := rfl
  rw [hLt] at h
  rw [hLt]
  have hstrip : stripChars (defaultProcess
      (removeSpaces (stripChars s.toList))) =
      defaultProcess (removeSpaces (stripChars s.toList)) := by
    unfold defaultProcess
    exact stripChars_idem _
  rw [hstrip]
  have hrs : removeSpaces (defaultProcess
      (removeSpaces (stripChars s.toList))) =
      defaultProcess (removeSpaces (stripChars s.toList)) := by
    unfold removeSpaces
    apply List.filter_eq_self.mpr
    intro a ha
    simpa using h a ha
  rw [hrs]
  have hmap : (defaultProcess (removeSpaces (stripChars s.toList))).map
        (fun c => if c.isAlphanum then c.toLower else ' ') =
      defaultProcess (removeSpaces (stripChars s.toList)) := by
    conv_rhs => rw [← List.map_id (defaultProcess
      (removeSpaces (stripChars s.toList)))]
    apply List.map_congr_left
    intro a ha
    obtain ⟨c0, hc0, hfc0⟩ := List.mem_map.mp (defaultProcess_subset ha)
    by_cases hal : c0.isAlphanum = true
    · rw [if_pos hal] at hfc0
      obtain ⟨hal2, hfix⟩ := toLower_fix c0 hal
      rw [← hfc0, if_pos hal2]
      exact hfix
    · rw [if_neg hal] at hfc0
      exact absurd hfc0.symm (h a ha)
  have hdp : defaultProcess (defaultProcess
      (removeSpaces (stripChars s.toList))) =
      defaultProcess (removeSpaces (stripChars s.toList)) := by
    show stripChars ((defaultProcess
        (removeSpaces (stripChars s.toList))).map
      (fun c => if c.isAlphanum then c.toLower else ' ')) = _
    rw [hmap]
    exact hstrip
  rw [hdp]

theorem claim_C8_witness :
    preprocessText (preprocessText "Acme") = preprocessText "Acme" :=
  claim_C8 "Acme" (by decide)

theorem claim_C8_counterexample :
    preprocessText (preprocessText "a!b") ≠ preprocessText "a!b" := by
  decide

/-- C9.  `match` mutates neither the caller's reference DataFrame nor
the loaded weight table: in the heap model the call allocates a fresh
copy for the account zero-padding and leaves every existing frame and
the weight table untouched. -/
theorem claim_C9 (imap instmap : FieldMap) (maxMatches : ℕ)
    (source : PyDict) (θ : ℚ) (h : Heap) (refIdx : ℕ) :
    (matchHeap imap instmap maxMatches source θ h refIdx).2.wtable =
        h.wtable ∧
    (matchHeap imap instmap maxMatches source θ h refIdx).2.frames.get?
        refIdx = h.frames.get? refIdx := by
  unfold matchHeap
  rcases hf : h.frames.get? refIdx with _ | cbs
  · exact ⟨rfl, hf⟩
  · simp only []
    obtain ⟨hlt, _⟩ := List.get?_eq_some.mp hf
    exact ⟨trivial, by rw [List.get?_append hlt]; exact hf⟩

/-- C10.  Every per-field similarity value produced by the batch text
and date similarity computations is `n / 100` for an integer
`0 ≤ n ≤ 100` — the `uint8` percentage materialization — so per-field
scores carry at most two decimal digits of resolution. -/
theorem claim_C10 :
    (∀ (cells : List (Option String)) (q : String) (v : ℚ),
        v ∈ batchTextSim cells q →
        ∃ n : ℕ, n ≤ 100 ∧ v = (n : ℚ) / 100) ∧
    (∀ (cells : List (Option String)) (q : PyVal) (v : ℚ),
        v ∈ batchDateSim cells q →
        ∃ n : ℕ, n ≤ 100 ∧ v = (n : ℚ) / 100) := by
  constructor
  · intro cells q v hv
    obtain ⟨cell, _, hcell⟩ := List.mem_map.mp hv
    obtain ⟨n, hn, he⟩ := textCellSim_cent cell q
    exact ⟨n, hn, by rw [← hcell, he]⟩
  · intro cells q v hv
    obtain ⟨cell, _, hcell⟩ := List.mem_map.mp hv
    obtain ⟨n, hn, he⟩ := dateCellSim_cent cell q
    exact ⟨n, hn, by rw [← hcell, he]⟩

theorem claim_C10_witness :
    ((4/5 : ℚ) ∈ batchTextSim [some "hello"] "hallo" ∧
      ∃ n : ℕ, n ≤ 100 ∧ (4/5 : ℚ) = (n : ℚ) / 100) ∧
    ((0 : ℚ) ∈ batchDateSim [some "20200101"] (PyVal.vstr "notadate") ∧
      ∃ n : ℕ, n ≤ 100 ∧ (0 : ℚ) = (n : ℚ) / 100) :=
  ⟨⟨by with_unfolding_all decide,
    claim_C10.1 [some "hello"] "hallo" (4/5) (by with_unfolding_all decide)⟩,
   ⟨by with_unfolding_all decide,
    claim_C10.2 [some "20200101"] (PyVal.vstr "notadate") 0
      (by with_unfolding_all decide)⟩⟩

end CbsMatch
